import Mathlib

/-!
Verification of the Namma Metro route-finder core (`src/metro.c`).

A shallow embedding of the graph-construction-and-search engine of
`metro.c`: station-name normalization (`normalize_inplace`), the station
registry (`find_or_add_by_key_with_plan`, `add_line_tag`), adjacency
construction (`connect_ids`, `add_line_with_plan`, `build_network`),
breadth-first search with blocked edges (`bfs_with_blocked_edges` plus the
callers' parent-chain path reconstruction), alternate-route search
(`find_alternates`, `route_equals`) and the per-edge line segmenter
(`build_edge_lines`).

C strings are modelled as `List Char` restricted to ASCII (matching the
byte-wise C ctype semantics); the C `int` station identities are `Nat`;
the global `stations[]` table is a `List Station`; the adjacency matrix is
a function `Nat → Nat → Bool`.  Machine-integer overflow is irrelevant at
the scales involved (counts are bounded by 400 in the C program).
-/

namespace Metro

/-! ## Character-level helpers (C ctype, "C" locale, ASCII) -/

/-- C `isspace` in the default locale: space, `\t`, `\n`, `\v`, `\f`, `\r`. -/
def cIsSpace (c : Char) : Bool :=
  c = ' ' || c = '\t' || c = '\n' || c = '\x0b' || c = '\x0c' || c = '\r'

/-- C `isalpha` in the default locale (ASCII letters only). -/
def cIsAlpha (c : Char) : Bool :=
  ('a' ≤ c && c ≤ 'z') || ('A' ≤ c && c ≤ 'Z')

/-- C `isdigit`. -/
def cIsDigit (c : Char) : Bool :=
  '0' ≤ c && c ≤ '9'

/-- C `isalnum`. -/
def cIsAlnum (c : Char) : Bool :=
  cIsAlpha c || cIsDigit c

/-- C `tolower` in the default locale (ASCII `A`-`Z` shifted by 32). -/
def cToLower (c : Char) : Char :=
  if 'A' ≤ c && c ≤ 'Z' then Char.ofNat (c.toNat + 32) else c

/-! ## `normalize_inplace` (metro.c lines 113-179)

Step 1 keeps only alphanumerics and whitespace; step 2 collapses
whitespace runs to single spaces and trims; step 3 scans left to right
fusing `letter, ' ', letter` triples; step 4 lowercases; finally the
result is truncated to 79 characters (`strncpy(s, tmp3, 79)`). -/

/-- Step 1: drop every character that is not alphanumeric or whitespace. -/
def step1 (s : List Char) : List Char :=
  s.filter fun c => cIsAlnum c || cIsSpace c

/-- The body of step 2's copy loop: emit one `' '` per whitespace run.
`lastSp` mirrors the C `last_space` flag. -/
def collapseAux : List Char → Bool → List Char
  | [], _ => []
  | c :: rest, lastSp =>
    if cIsSpace c then
      if lastSp then collapseAux rest true
      else ' ' :: collapseAux rest true
    else c :: collapseAux rest false

/-- Step 2: skip leading whitespace, collapse runs, drop one trailing space. -/
def step2 (s : List Char) : List Char :=
  let t := collapseAux (s.dropWhile fun c => cIsSpace c) false
  if t.getLast? = some ' ' then t.dropLast else t

/-- Step 3: the C scan fuses `tmp2[i], ' ', tmp2[i+2]` whenever positions
`i` and `i+2` hold ASCII letters, consuming three characters; otherwise it
copies one character and advances.  (Note: the C code checks only the
three characters themselves, not token boundaries.) -/
def fuse : List Char → List Char
  | a :: ' ' :: b :: rest =>
    if cIsAlpha a && cIsAlpha b then a :: b :: fuse rest
    else a :: fuse (' ' :: b :: rest)
  | c :: rest => c :: fuse rest
  | [] => []

/-- `normalize_inplace` on a character list. -/
def normalizeList (s : List Char) : List Char :=
  ((fuse (step2 (step1 s))).map cToLower).take 79

/-- `normalize_inplace` on a string. -/
def normalize (s : String) : String :=
  ⟨normalizeList s.data⟩

/-! ## Station registry (metro.c lines 61-259)

`Station` mirrors the C struct: the `lines[6][30]` array is a `List String`
(entries are written truncated to 29 characters, as by `strncpy(..., 29)`),
`planned` keeps the C `int`.  The global `stations[]` table plus
`stationCount` are a `List Station`; the adjacency matrix `adj[MAX][MAX]`
is a `Nat → Nat → Bool` function. -/

/-- `MAX` (metro.c line 41): capacity of the C `stations[]` table. -/
def MAX : Nat := 400

/-- `MAX_ALTERNATES` (metro.c line 45). -/
def MAX_ALTERNATES : Nat := 3

structure Station where
  display_name : String
  key_name : String
  lines : List String
  planned : Nat
  deriving Repr, DecidableEq

/-- Truncation to `n` characters, as by `strncpy(dst, src, n)` into a
zeroed buffer. -/
def strTake (n : Nat) (s : String) : String :=
  ⟨s.data.take n⟩

/-- The display-name trimming in `find_or_add_by_key_with_plan`
(metro.c lines 223-241): copy at most 79 characters, then strip leading
and trailing `isspace` characters. -/
def trimDisplay (display : String) : String :=
  ⟨((((display.data.take 79).dropWhile fun c => cIsSpace c).reverse.dropWhile
      fun c => cIsSpace c).reverse)⟩

/-- The lookup loop of `find_or_add_by_key_with_plan` (metro.c lines
213-217): index of the first station whose `key_name` equals `key`. -/
def findStation (st : List Station) (key : String) : Option Nat :=
  match st with
  | [] => none
  | s :: rest =>
    if s.key_name == key then some 0
    else (findStation rest key).map (· + 1)

/-- `find_or_add_by_key_with_plan` (metro.c lines 211-247): look the key up
by `strcmp`; if present return its index and leave the table untouched,
otherwise append a fresh station (trimmed display name, empty line set,
the given planned flag) and return the old count.  The C code performs
this append with no capacity test whatsoever. -/
def find_or_add_by_key_with_plan (st : List Station) (key display : String)
    (planned : Nat) : Nat × List Station :=
  match findStation st key with
  | some i => (i, st)
  | none =>
    (st.length,
     st ++ [{ display_name := trimDisplay display
              key_name := strTake 79 key
              lines := []
              planned := planned }])

/-- Replace the element at index `i` (no-op out of range), as a C array
write `stations[id] = ...`. -/
def listModify (l : List α) (i : Nat) (f : α → α) : List α :=
  match l, i with
  | [], _ => []
  | a :: rest, 0 => f a :: rest
  | a :: rest, n + 1 => a :: listModify rest n f

/-- `add_line_tag` (metro.c lines 250-259): append `line` (truncated to 29
characters) to the station's line list unless an equal entry is present. -/
def add_line_tag (st : List Station) (id : Nat) (line : String) : List Station :=
  listModify st id fun s =>
    if s.lines.contains line then s
    else { s with lines := s.lines ++ [strTake 29 line] }

/-- `connect_ids` (metro.c lines 262-266): symmetric adjacency write,
rejecting self-loops.  (The C `a < 0 || b < 0` guard has no counterpart
for `Nat` identities.) -/
def connect_ids (adjm : Nat → Nat → Bool) (a b : Nat) : Nat → Nat → Bool :=
  if a = b then adjm
  else fun x y => if (x = a ∧ y = b) ∨ (x = b ∧ y = a) then true else adjm x y

/-- The station table and adjacency matrix: the program's global state. -/
structure NetState where
  stations : List Station
  adj : Nat → Nat → Bool

/-- The registration loop of `add_line_with_plan` (metro.c lines 280-294):
normalize each raw name, find-or-add it, tag it with the line name, and
collect the resulting ids in order. -/
def registerAll (s : NetState) (lineName : String) :
    List (String × Nat) → NetState × List Nat
  | [] => (s, [])
  | (raw, flag) :: rest =>
    let key := normalize (strTake 79 raw)
    let (id, st') := find_or_add_by_key_with_plan s.stations key (strTake 79 raw) flag
    let st'' := add_line_tag st' id lineName
    let (s', ids) := registerAll { s with stations := st'' } lineName rest
    (s', id :: ids)

/-- The edge loop of `add_line_with_plan` (metro.c lines 297-299): connect
consecutive ids. -/
def connectConsec (adjm : Nat → Nat → Bool) : List Nat → Nat → Nat → Bool
  | [] => adjm
  | [_] => adjm
  | a :: b :: rest => connectConsec (connect_ids adjm a b) (b :: rest)

/-- `add_line_with_plan` (metro.c lines 277-300). -/
def add_line_with_plan (s : NetState) (lineName : String)
    (entries : List (String × Nat)) : NetState :=
  let (s', ids) := registerAll s lineName entries
  { s' with adj := connectConsec s'.adj ids }

/-- The purple-line station list (metro.c lines 321-329). -/
def purpleLine : List String :=
  ["challaghatta", "kengeri", "Kengeri Bus Terminal", "Pattanagere",
   "Jnanbharati", "Rajarajeshwari Nagar", "Nayandahalli", "mysore road",
   "deepanjali nagar", "attiguppe", "vijayanagar", "Hosahalli",
   "magadi road", "majestic", "Central Road", "Vidhana Soudha",
   "Cubbon Park", "m.g. road", "trinity", "halasuru", "indiranagar",
   "swami vivekananda road", "baiyappanahalli", "Benniganahalli",
   "kr puram", "Singayyanapalya", "Garudacharpalaya", "hoodi",
   "Seetharampalya", "Kundalahalli", "Nallurhalli",
   "Sri Satya Sai Hospital", "Pattandur Agrahara", "Kadugodi Tree Park",
   "Channasandra(HopeFarm)", "whitefield(Kadugodi)"]

/-- The green-line station list (metro.c lines 337-344). -/
def greenLine : List String :=
  ["Madavara", "Chikkabidarakallu", "Manjunathanagar", "nagasandra",
   "Dasarhalli", "Jalahalli", "Peenya Industry", "Peenya",
   "Gorguntepalya", "Yeswantpur", "Sandal Soap Factory", "Mahalakshmi",
   "Rajijnagar", "Kuvempu road", "Srirampura", "Sampige Road", "majestic",
   "Chickpete", "Krishna Rajendra Market", "National College", "Lalbagh",
   "South End Circle", "Jayanagar", "Rashtreeya Vidyalaya Road",
   "Banashankari", "jayadeva hospital", "Yelachenahalli",
   "Konanakunte Cross", "Vajarahalli", "Thalaghattapura", "Silk Institute"]

/-- The pink-line station list (metro.c lines 352-357). -/
def pinkLine : List String :=
  ["kalena agrahara", "hulimavu", "iim bangalore", "jp nagar 4th phase",
   "jayadeva hospital", "Tavarekere", "dairy circle", "lakkasandra",
   "langford town", "rashtriya military school", "mg road", "shivajinagar",
   "Cantonment", "Pottery Town", "tannery road", "Venkateshpura",
   "kadugundanahalli", "nagawara"]

/-- `build_network` (metro.c lines 310-369): reset the registry and the
adjacency matrix, then add the three lines with all planned flags 0.
The `include_planned` parameter is unused in the C code. -/
def build_network (_include_planned : Nat) : NetState :=
  let s0 : NetState := { stations := [], adj := fun _ _ => false }
  let s1 := add_line_with_plan s0 "purple" (purpleLine.map fun n => (n, 0))
  let s2 := add_line_with_plan s1 "green" (greenLine.map fun n => (n, 0))
  add_line_with_plan s2 "pink" (pinkLine.map fun n => (n, 0))

/-! ## BFS with blocked edges (metro.c lines 391-438)

The C function operates on the globals `adj` and `stationCount`; the
embedding packages those two as a `Graph`.  The queue `q[]` with its
`front`/`rear` cursors is the pending suffix `queue : List Nat`; `visited`
and `parent` are the C arrays as functions.  The loop runs at most
`stationCount + 1` iterations (every enqueued node is freshly marked
visited, and only `src` plus nodes `< stationCount` are ever enqueued), so
running the recursion on `n + 1` fuel reproduces the C `while` loop
exactly; `bfsAux_measure` below discharges the fuel. -/

structure Graph where
  n : Nat
  adj : Nat → Nat → Bool

/-- The blocked-edge test of the C inner loop (metro.c lines 420-429): the
pair matches in either orientation. -/
def edgeBlocked (bl : List (Nat × Nat)) (u v : Nat) : Bool :=
  bl.any fun p => (u == p.1 && v == p.2) || (u == p.2 && v == p.1)

/-- One execution of the neighbor scan `for (v = 0; v < stationCount; v++)`
(metro.c lines 415-434): the nodes that get enqueued from `u`, in
increasing station-identity order. -/
def succs (g : Graph) (bl : List (Nat × Nat)) (visited : Nat → Bool)
    (u : Nat) : List Nat :=
  (List.range g.n).filter fun v =>
    g.adj u v && !visited v && !edgeBlocked bl u v

/-- The BFS `while (front < rear)` loop.  Dequeue `u`; stop successfully
when `u` is the destination; otherwise enqueue the unvisited, unblocked
neighbors of `u` in increasing identity order, recording `u` as their
parent.  Returns the final parent map on success, `none` on exhaustion. -/
def bfsAux (g : Graph) (bl : List (Nat × Nat)) (dest : Nat) :
    Nat → List Nat → (Nat → Bool) → (Nat → Option Nat) →
    Option (Nat → Option Nat)
  | 0, _, _, _ => none
  | _ + 1, [], _, _ => none
  | fuel + 1, u :: rest, visited, parent =>
    if u = dest then some parent
    else
      let ns := succs g bl visited u
      bfsAux g bl dest fuel (rest ++ ns)
        (fun x => visited x || ns.contains x)
        (fun x => if ns.contains x then some u else parent x)

/-- `bfs_with_blocked_edges (src, dest, parent, blocked…)` (metro.c lines
391-438): start with `src` enqueued and visited and `parent[src] = -1`
(modelled as `none`). -/
def bfs_with_blocked_edges (g : Graph) (src dest : Nat)
    (bl : List (Nat × Nat)) : Option (Nat → Option Nat) :=
  bfsAux g bl dest (g.n + 1) [src] (fun x => x == src) (fun _ => none)

/-- The parent-chain walk `while (cur != -1) { path[len++] = cur; cur =
parent[cur]; }` shared by `get_route` (metro.c lines 1094-1101) and
`find_alternates` (lines 686-693), producing the path in
destination-to-source order.  The C loop has no fuel; under the BFS
invariants every parent chain is strictly shorter than `n + 1`, so that
fuel is never exhausted. -/
def tracePath (parent : Nat → Option Nat) : Nat → Nat → List Nat
  | 0, cur => [cur]
  | fuel + 1, cur =>
    match parent cur with
    | none => [cur]
    | some u => cur :: tracePath parent fuel u

/-- The complete search-and-reconstruct pipeline used by the callers of
`bfs_with_blocked_edges`: run the BFS, then walk and reverse the parent
chain (metro.c lines 1094-1106 and 683-700). -/
def shortest_path (g : Graph) (src dest : Nat) (bl : List (Nat × Nat)) :
    Option (List Nat) :=
  match bfs_with_blocked_edges g src dest bl with
  | none => none
  | some parent => some (tracePath parent (g.n + 1) dest).reverse

/-- `route_equals` (metro.c lines 450-456): length check plus elementwise
comparison. -/
def route_equals : List Nat → List Nat → Bool
  | [], [] => true
  | a :: as, b :: bs => a == b && route_equals as bs
  | _, _ => false

/-- The candidate route produced by one iteration of the
`find_alternates` loop: block the single primary edge
`(primary[e], primary[e+1])` and search between the primary's endpoints
`primary[0]` and `primary[plen-1]` (metro.c lines 675-700). -/
def altCandidate (g : Graph) (primary : List Nat) (e : Nat) :
    Option (List Nat) :=
  shortest_path g (primary.getD 0 0) (primary.getD (primary.length - 1) 0)
    [(primary.getD e 0, primary.getD (e + 1) 0)]

/-- One iteration of the `find_alternates` loop body (metro.c lines
674-719): skip once the cap is reached, otherwise accept the candidate
unless it duplicates the primary or an accepted alternate. -/
def altStep (g : Graph) (primary : List Nat) (acc : List (List Nat))
    (e : Nat) : List (List Nat) :=
  if MAX_ALTERNATES ≤ acc.length then acc
  else
    match altCandidate g primary e with
    | none => acc
    | some path =>
      if route_equals path primary || acc.any (fun a => route_equals path a)
      then acc
      else acc ++ [path]

/-- `find_alternates` (metro.c lines 670-723): fold the loop body over the
edge indices of the primary path in order. -/
def find_alternates (g : Graph) (primary : List Nat) : List (List Nat) :=
  (List.range (primary.length - 1)).foldl (altStep g primary) []

/-! ## Line segmenter (metro.c lines 464-484) -/

/-- The nested scan of `build_edge_lines`: the first entry of `as` (the
first station's line set, in insertion order) that also occurs in `bs`. -/
def findCommonLine : List String → List String → Option String
  | [], _ => none
  | a :: as, bs => if bs.contains a then some a else findCommonLine as bs

/-- The default station seen by out-of-range reads of the table. -/
def defaultStation : Station :=
  { display_name := "", key_name := "", lines := [], planned := 0 }

/-- The station stored at index `i`. -/
def stationAt (st : List Station) (i : Nat) : Station :=
  st.getD i defaultStation

/-- The line set of station `id` (empty out of range). -/
def linesOf (st : List Station) (id : Nat) : List String :=
  (stationAt st id).lines

/-- `build_edge_lines` (metro.c lines 464-484): label each consecutive
pair of the path with the first line shared by the two stations' line
sets (copied through `strncpy(..., 29)`), or the sentinel `"unknown"`
when no shared line exists. -/
def build_edge_lines (st : List Station) : List Nat → List String
  | a :: b :: rest =>
    (match findCommonLine (linesOf st a) (linesOf st b) with
     | some l => strTake 29 l
     | none => "unknown") :: build_edge_lines st (b :: rest)
  | _ => []

/-! ## Specification layer: paths, reachability, distance

A path is a node list whose consecutive pairs are graph edges not present
(in either orientation) in the blocked set; both endpoints of every edge
are valid station identities.  `HasDist` is the minimum hop count. -/

/-- `u → v` is a usable edge: valid identities, adjacent, not blocked. -/
def EdgeOK (g : Graph) (bl : List (Nat × Nat)) (u v : Nat) : Prop :=
  u < g.n ∧ v < g.n ∧ g.adj u v = true ∧ edgeBlocked bl u v = false

instance (g : Graph) (bl : List (Nat × Nat)) (u v : Nat) :
    Decidable (EdgeOK g bl u v) :=
  inferInstanceAs (Decidable (_ ∧ _ ∧ _ ∧ _))

/-- `p` is a path from `s` to `t` avoiding the blocked edges. -/
def IsPath (g : Graph) (bl : List (Nat × Nat)) (p : List Nat) (s t : Nat) :
    Prop :=
  List.Chain' (EdgeOK g bl) p ∧ p.head? = some s ∧ p.getLast? = some t

instance (g : Graph) (bl : List (Nat × Nat)) (p : List Nat) (s t : Nat) :
    Decidable (IsPath g bl p s t) :=
  inferInstanceAs (Decidable (_ ∧ _ ∧ _))

/-- Some path from `s` to `t` avoiding `bl` exists. -/
def Reachable (g : Graph) (bl : List (Nat × Nat)) (s t : Nat) : Prop :=
  ∃ p, IsPath g bl p s t

/-- `t` is reachable from `s` within `d` hops. -/
def ReachLe (g : Graph) (bl : List (Nat × Nat)) (s t : Nat) (d : Nat) : Prop :=
  ∃ p, IsPath g bl p s t ∧ p.length ≤ d + 1

/-- `d` is the exact minimum hop count from `s` to `t`. -/
def HasDist (g : Graph) (bl : List (Nat × Nat)) (s t : Nat) (d : Nat) : Prop :=
  ReachLe g bl s t d ∧ ∀ e, ReachLe g bl s t e → d ≤ e

/-- Strict lexicographic order on identity sequences, used to state the
BFS tie-break: among equally short paths, the one discovered by the
left-to-right identity scan is the lexicographically least. -/
def LexLt (p q : List Nat) : Prop :=
  List.Lex (· < ·) p q

/-- Reflexive closure of `LexLt`. -/
def LexLe (p q : List Nat) : Prop :=
  p = q ∨ LexLt p q

/-- The path the callers reconstruct from a parent map: the traced chain,
reversed into source-to-destination order. -/
def bfsPathTo (g : Graph) (P : Nat → Option Nat) (v : Nat) : List Nat :=
  (tracePath P (g.n + 1) v).reverse

/-- Number of visited identities below `g.n`. -/
def vcount (g : Graph) (V : Nat → Bool) : Nat :=
  ((List.range g.n).filter V).length

/-- The invariant of the `bfs_with_blocked_edges` loop. -/
structure BfsInv (g : Graph) (bl : List (Nat × Nat)) (src dest : Nat)
    (q : List Nat) (V : Nat → Bool) (P : Nat → Option Nat) : Prop where
  src_vis : V src = true
  q_nodup : q.Nodup
  q_vis : ∀ x ∈ q, V x = true
  vis_lt : ∀ x, V x = true → x = src ∨ x < g.n
  dest_in_q : V dest = true → dest ∈ q
  closed : ∀ u, V u = true → u ∉ q → ∀ v, EdgeOK g bl u v → V v = true
  p_src : P src = none
  p_spec : ∀ v, V v = true → v ≠ src →
    ∃ u du, P v = some u ∧ V u = true ∧ EdgeOK g bl u v ∧
      HasDist g bl src u du ∧ HasDist g bl src v (du + 1)
  levels : ∃ d q1 q2, q = q1 ++ q2 ∧
    (∀ x ∈ q1, HasDist g bl src x d) ∧
    (∀ x ∈ q2, HasDist g bl src x (d + 1)) ∧
    (∀ x e, HasDist g bl src x e → e ≤ d → V x = true) ∧
    (∀ x, V x = true → (∃ e, HasDist g bl src x e ∧ e ≤ d) ∨ x ∈ q2) ∧
    q1.Pairwise (fun a b => LexLt (bfsPathTo g P a) (bfsPathTo g P b)) ∧
    q2.Pairwise (fun a b => LexLt (bfsPathTo g P a) (bfsPathTo g P b)) ∧
    (∀ x ∈ q2, ∀ w ∈ q1, ∀ y,
      LexLt (bfsPathTo g P x) (bfsPathTo g P w ++ [y]))
  p_min : ∀ v, V v = true → ∀ dv Q, HasDist g bl src v dv →
    IsPath g bl Q src v → Q.length = dv + 1 → LexLe (bfsPathTo g P v) Q

/-- The edge relation is symmetric and self-loop-free. -/
def SymmIrrefl (adjm : Nat → Nat → Bool) : Prop :=
  (∀ x y, adjm x y = adjm y x) ∧ (∀ x, adjm x x = false)

/-! ## Concrete fixtures used to instantiate the theorems -/

/-- A three-station triangle graph. -/
def tri : Graph :=
  ⟨3, fun a b => decide ((a, b) ∈ [(0, 1), (1, 0), (0, 2), (2, 0), (1, 2), (2, 1)])⟩

/-- A three-station table: stations 0 and 1 share the line `"purple"`,
station 2 lies on `"green"` only. -/
def stW : List Station :=
  [{ display_name := "A", key_name := "a", lines := ["purple"], planned := 0 },
   { display_name := "B", key_name := "b", lines := ["purple", "pink"], planned := 0 },
   { display_name := "C", key_name := "c", lines := ["green"], planned := 0 }]

section PathLemmas

variable {g : Graph} {bl : List (Nat × Nat)}

theorem isPath_singleton (x : Nat) : IsPath g bl [x] x x := by
  refine ⟨List.chain'_singleton x, rfl, rfl⟩

theorem IsPath.nonempty {p : List Nat} {s t : Nat}
    (h : IsPath g bl p s t) : p ≠ [] := by
  intro hnil
  rw [hnil] at h
  exact Option.noConfusion h.2.1

theorem IsPath.src_eq_tgt {p : List Nat} {s t : Nat}
    (h : IsPath g bl p s t) (hlen : p.length ≤ 1) : s = t := by
  match p, h with
  | [], h => exact absurd rfl h.nonempty
  | [x], h =>
    have h1 : x = s := by simpa using h.2.1
    have h2 : x = t := by simpa using h.2.2
    exact h1 ▸ h2
  | x :: y :: rest, h => simp at hlen

theorem isPath_pair {u v : Nat} (h : EdgeOK g bl u v) :
    IsPath g bl [u, v] u v := by
  exact ⟨List.chain'_pair.mpr h, rfl, rfl⟩

theorem IsPath.concat {p : List Nat} {s u v : Nat}
    (h : IsPath g bl p s u) (he : EdgeOK g bl u v) :
    IsPath g bl (p ++ [v]) s v := by
  obtain ⟨hc, hh, hl⟩ := h
  refine ⟨?_, ?_, List.getLast?_concat p⟩
  · rw [List.chain'_append]
    refine ⟨hc, List.chain'_singleton v, ?_⟩
    intro x hx y hy
    simp only [List.head?_cons, Option.mem_def, Option.some.injEq] at hy
    rw [hl] at hx
    simp only [Option.mem_def, Option.some.injEq] at hx
    subst hx
    subst hy
    exact he
  · cases p with
    | nil => exact absurd rfl (IsPath.nonempty ⟨hc, hh, hl⟩)
    | cons a l => simpa using hh

/-- Splitting a path of at least two nodes at its final edge. -/
theorem IsPath.concat_elim {q : List Nat} {s v : Nat}
    (h : IsPath g bl q s v) (hlen : 2 ≤ q.length) :
    ∃ p u, q = p ++ [v] ∧ IsPath g bl p s u ∧ EdgeOK g bl u v ∧
      p.length + 1 = q.length := by
  obtain ⟨hc, hh, hl⟩ := h
  obtain ⟨p, a, rfl⟩ : ∃ p a, q = p ++ [a] := by
    cases hq : q.reverse with
    | nil =>
      rw [List.reverse_eq_nil_iff] at hq
      subst hq; simp at hh
    | cons a l =>
      refine ⟨l.reverse, a, ?_⟩
      have := congrArg List.reverse hq
      simpa using this
  have hva : a = v := by
    have : (p ++ [a]).getLast? = some a := List.getLast?_concat p
    rw [hl] at this
    exact (Option.some.injEq _ _ ▸ this).symm
  subst hva
  have hpne : p ≠ [] := by
    intro hnil; subst hnil; simp at hlen
  rw [List.chain'_append] at hc
  obtain ⟨hcp, _, hlink⟩ := hc
  obtain ⟨u, hu⟩ : ∃ u, p.getLast? = some u := by
    cases hp : p.getLast? with
    | none => rw [List.getLast?_eq_none_iff] at hp; exact absurd hp hpne
    | some u => exact ⟨u, rfl⟩
  refine ⟨p, u, rfl, ⟨hcp, ?_, hu⟩, hlink u hu a rfl, by simp⟩
  cases p with
  | nil => exact absurd rfl hpne
  | cons b l => simpa using hh

/-- Every node of a path is a valid identity, provided the source is. -/
theorem IsPath.mem_lt {p : List Nat} {s t : Nat}
    (h : IsPath g bl p s t) (hs : s < g.n) : ∀ x ∈ p, x < g.n := by
  induction p generalizing s with
  | nil => intro x hx; simp at hx
  | cons a rest ih =>
    intro x hx
    have ha : a = s := by simpa using h.2.1
    cases rest with
    | nil =>
      simp only [List.mem_singleton] at hx
      rw [hx, ha]; exact hs
    | cons b rest' =>
      have hedge : EdgeOK g bl a b := (List.chain'_cons.mp h.1).1
      have htail : IsPath g bl (b :: rest') b t :=
        ⟨(List.chain'_cons.mp h.1).2, rfl, by simpa using h.2.2⟩
      rcases List.mem_cons.mp hx with rfl | hx'
      · rw [ha]; exact hs
      · exact ih htail hedge.2.1 x hx'

end PathLemmas

section DistLemmas

variable {g : Graph} {bl : List (Nat × Nat)} {s t u v : Nat} {d e : Nat}

theorem ReachLe.mono (h : ReachLe g bl s t d) (hde : d ≤ e) :
    ReachLe g bl s t e := by
  obtain ⟨p, hp, hlen⟩ := h
  exact ⟨p, hp, hlen.trans (by omega)⟩

theorem HasDist.unique (h : HasDist g bl s t d) (h' : HasDist g bl s t e) :
    d = e :=
  Nat.le_antisymm (h.2 e h'.1) (h'.2 d h.1)

theorem Reachable.hasDist (h : Reachable g bl s t) :
    ∃ d, HasDist g bl s t d := by
  classical
  obtain ⟨p, hp⟩ := h
  have hne : ∃ e, ReachLe g bl s t e := by
    refine ⟨p.length, p, hp, by omega⟩
  refine ⟨Nat.find hne, Nat.find_spec hne, ?_⟩
  intro e he
  exact Nat.find_min' hne he

theorem hasDist_self : HasDist g bl s s 0 := by
  refine ⟨⟨[s], isPath_singleton s, by simp⟩, fun e _ => Nat.zero_le e⟩

theorem HasDist.eq_src (h : HasDist g bl s t 0) : t = s := by
  obtain ⟨⟨p, hp, hlen⟩, _⟩ := h
  exact (hp.src_eq_tgt hlen).symm

theorem HasDist.reachable (h : HasDist g bl s t d) : Reachable g bl s t := by
  obtain ⟨⟨p, hp, _⟩, _⟩ := h
  exact ⟨p, hp⟩

/-- Appending one edge to a shortest path. -/
theorem HasDist.extend (h : HasDist g bl s u d) (he : EdgeOK g bl u v) :
    ReachLe g bl s v (d + 1) := by
  obtain ⟨⟨p, hp, hlen⟩, _⟩ := h
  exact ⟨p ++ [v], hp.concat he, by simp; omega⟩

theorem hasDist_of_reachLe_succ (h1 : ReachLe g bl s v (d + 1))
    (h0 : ¬ ReachLe g bl s v d) : HasDist g bl s v (d + 1) := by
  refine ⟨h1, fun e he => ?_⟩
  by_contra hlt
  exact h0 (he.mono (by omega))

/-- A node at distance `d + 1` has a predecessor at distance exactly `d`. -/
theorem HasDist.decompose (h : HasDist g bl s v (d + 1)) :
    ∃ u, HasDist g bl s u d ∧ EdgeOK g bl u v := by
  obtain ⟨⟨p, hp, hlen⟩, hmin⟩ := h
  have hlen2 : 2 ≤ p.length := by
    by_contra hsmall
    have : s = v := hp.src_eq_tgt (by omega)
    subst this
    have : (0 : Nat) + 1 ≤ 0 := by
      simpa using hmin 0 ⟨[s], isPath_singleton s, by simp⟩
    omega
  obtain ⟨q, u, rfl, hq, hedge, hql⟩ := hp.concat_elim hlen2
  have hqle : ReachLe g bl s u d := by
    refine ⟨q, hq, ?_⟩
    simp only [List.length_append, List.length_singleton] at hlen
    omega
  obtain ⟨du, hdu⟩ := Reachable.hasDist ⟨q, hq⟩
  have hdud : du ≤ d := hdu.2 d hqle
  have hdue : d ≤ du := by
    have hr : ReachLe g bl s v (du + 1) := hdu.extend hedge
    have := hmin (du + 1) hr
    omega
  have : du = d := by omega
  subst this
  exact ⟨u, hdu, hedge⟩

/-- Any duplicate-containing path can be strictly shortened. -/
theorem isPath_shorten {p : List Nat} (hp : IsPath g bl p s t)
    (hdup : ¬ p.Nodup) :
    ∃ q, IsPath g bl q s t ∧ q.length < p.length := by
  obtain ⟨xs, a, ys, zs, rfl⟩ :
      ∃ xs a ys zs, p = (xs ++ a :: ys) ++ a :: zs := by
    clear hp
    induction p with
    | nil => exact absurd List.nodup_nil hdup
    | cons b rest ih =>
      by_cases hmem : b ∈ rest
      · obtain ⟨ys, zs, rfl⟩ := List.append_of_mem hmem
        exact ⟨[], b, ys, zs, rfl⟩
      · have hrest : ¬ rest.Nodup := by
          intro hnd
          exact hdup (List.nodup_cons.mpr ⟨hmem, hnd⟩)
        obtain ⟨xs, a, ys, zs, hsplit⟩ := ih hrest
        exact ⟨b :: xs, a, ys, zs, by rw [hsplit]; simp⟩
  obtain ⟨hc, hh, hl⟩ := hp
  rw [List.chain'_append] at hc
  obtain ⟨hxs', hmid, _⟩ := hc
  rw [List.chain'_append] at hxs'
  obtain ⟨hxs, _, hlink⟩ := hxs'
  refine ⟨xs ++ a :: zs, ⟨?_, ?_, ?_⟩, by simp; omega⟩
  · rw [List.chain'_append]
    refine ⟨hxs, hmid, ?_⟩
    intro x hx y hy
    simp only [List.head?_cons, Option.mem_def, Option.some.injEq] at hy
    subst hy
    exact hlink x hx a (by simp)
  · cases xs with
    | nil => simpa using hh
    | cons b l => simpa using hh
  · rw [List.getLast?_append_cons] at hl ⊢
    exact hl

/-- Every path can be refined into a duplicate-free one, no longer. -/
theorem isPath_to_nodup_bounded :
    ∀ n, ∀ {p : List Nat}, p.length ≤ n → IsPath g bl p s t →
      ∃ q, IsPath g bl q s t ∧ q.Nodup ∧ q.length ≤ p.length := by
  intro n
  induction n with
  | zero =>
    intro p hlen hp
    cases p with
    | nil => exact absurd rfl hp.nonempty
    | cons a l => simp at hlen
  | succ n ih =>
    intro p hlen hp
    by_cases hdup : p.Nodup
    · exact ⟨p, hp, hdup, le_rfl⟩
    · obtain ⟨q, hq, hql⟩ := isPath_shorten hp hdup
      obtain ⟨r, hr, hrnd, hrl⟩ := ih (by omega) hq
      exact ⟨r, hr, hrnd, by omega⟩

theorem isPath_to_nodup {p : List Nat} (hp : IsPath g bl p s t) :
    ∃ q, IsPath g bl q s t ∧ q.Nodup ∧ q.length ≤ p.length :=
  isPath_to_nodup_bounded p.length le_rfl hp

/-- A duplicate-free list of identities below `g.n` has at most `g.n`
elements. -/
theorem nodup_length_le {p : List Nat} (hnd : p.Nodup)
    (hlt : ∀ x ∈ p, x < g.n) : p.length ≤ g.n := by
  classical
  have hsub : p.toFinset ⊆ Finset.range g.n := by
    intro x hx
    rw [List.mem_toFinset] at hx
    exact Finset.mem_range.mpr (hlt x hx)
  have hcard := Finset.card_le_card hsub
  rw [List.card_toFinset, List.Nodup.dedup hnd, Finset.card_range] at hcard
  exact hcard

/-- Distances are bounded by `g.n - 1`: a shortest path is duplicate-free
and visits only valid identities. -/
theorem HasDist.lt_n (h : HasDist g bl s v d) (hs : s < g.n) : d < g.n := by
  obtain ⟨⟨p, hp, hlen⟩, hmin⟩ := h
  obtain ⟨q, hq, hqnd, hql⟩ := isPath_to_nodup hp
  have hqn : q.length ≤ g.n := nodup_length_le hqnd (hq.mem_lt hs)
  have hq1 : 1 ≤ q.length := by
    cases q with
    | nil => exact absurd rfl hq.nonempty
    | cons a l => simp
  have := hmin (q.length - 1) ⟨q, hq, by omega⟩
  omega

end DistLemmas

/-! ## Lexicographic-order helpers for the tie-break analysis -/

theorem lexLt_append :
    ∀ {p q : List Nat}, LexLt p q → p.length = q.length →
      ∀ p' q', LexLt (p ++ p') (q ++ q') := by
  intro p q h
  unfold LexLt at h ⊢
  induction h with
  | nil =>
    intro hlen
    simp at hlen
  | cons h ih =>
    intro hlen p' q'
    exact List.Lex.cons (ih (by simpa using hlen) p' q')
  | rel h =>
    intro _ p' q'
    exact List.Lex.rel h

theorem lexLt_concat_lt {T : List Nat} {a b : Nat} (h : a < b) :
    LexLt (T ++ [a]) (T ++ [b]) := by
  unfold LexLt
  induction T with
  | nil => exact List.Lex.rel h
  | cons x xs ih => exact List.Lex.cons ih

theorem lexLt_trans :
    ∀ {p q r : List Nat}, LexLt p q → LexLt q r → LexLt p r := by
  intro p q r h1
  unfold LexLt at *
  induction h1 generalizing r with
  | nil =>
    intro h2
    cases h2 with
    | cons _ => exact List.Lex.nil
    | rel _ => exact List.Lex.nil
  | cons h ih =>
    intro h2
    cases h2 with
    | cons h2' => exact List.Lex.cons (ih h2')
    | rel hr => exact List.Lex.rel hr
  | rel hr =>
    intro h2
    cases h2 with
    | cons _ => exact List.Lex.rel hr
    | rel hr2 => exact List.Lex.rel (Nat.lt_trans hr hr2)

theorem lexLe_trans {p q r : List Nat} (h1 : LexLe p q) (h2 : LexLe q r) :
    LexLe p r := by
  rcases h1 with rfl | h1
  · exact h2
  · rcases h2 with rfl | h2
    · exact Or.inr h1
    · exact Or.inr (lexLt_trans h1 h2)

theorem lexLe_concat {p q : List Nat} (hlen : p.length = q.length)
    (h : LexLe p q) (a : Nat) : LexLe (p ++ [a]) (q ++ [a]) := by
  rcases h with rfl | h
  · exact Or.inl rfl
  · exact Or.inr (lexLt_append h hlen [a] [a])

/-! ## The BFS loop invariant

The state of `bfsAux` is the pending queue, the visited map and the
parent map.  `BfsInv` collects the facts preserved by every loop
iteration; `vcount` (the number of visited valid identities) drives the
fuel argument: each iteration decreases
`queue.length + (g.n - vcount g visited)` by exactly one. -/

section SuccsLemmas

variable {g : Graph} {bl : List (Nat × Nat)} {V : Nat → Bool} {u v : Nat}

theorem mem_succs :
    v ∈ succs g bl V u ↔
      v < g.n ∧ g.adj u v = true ∧ V v = false ∧ edgeBlocked bl u v = false := by
  simp only [succs, List.mem_filter, List.mem_range, Bool.and_eq_true,
    Bool.not_eq_true']
  tauto

theorem succs_nodup : (succs g bl V u).Nodup :=
  (List.nodup_range g.n).filter _

theorem succs_fresh : ∀ x ∈ succs g bl V u, V x = false := fun _ hx =>
  (mem_succs.mp hx).2.2.1

theorem succs_lt : ∀ x ∈ succs g bl V u, x < g.n := fun _ hx =>
  (mem_succs.mp hx).1

/-- Members of `succs` are usable edges out of `u` (given `u` valid). -/
theorem succs_edgeOK (hu : u < g.n) : ∀ x ∈ succs g bl V u, EdgeOK g bl u x := by
  intro x hx
  obtain ⟨h1, h2, _, h4⟩ := mem_succs.mp hx
  exact ⟨hu, h1, h2, h4⟩

theorem vcount_le : vcount g V ≤ g.n := by
  calc ((List.range g.n).filter V).length ≤ (List.range g.n).length :=
        List.length_filter_le _ _
    _ = g.n := List.length_range g.n

/-- Generic two-way counting split of a disjunctive filter. -/
theorem filter_or_length (p q : Nat → Bool) :
    ∀ l : List Nat,
      (l.filter fun x => p x || q x).length =
        (l.filter p).length + (l.filter fun x => !p x && q x).length := by
  intro l
  induction l with
  | nil => rfl
  | cons a l ih =>
    by_cases hp : p a <;> by_cases hq : q a <;>
      simp [List.filter_cons, hp, hq, ih] <;> omega

/-- A nodup sub-list below `g.n` is counted exactly once by the range
filter. -/
theorem filter_contains_length {ns : List Nat} (hnd : ns.Nodup)
    (hsub : ∀ x ∈ ns, x < g.n) :
    ((List.range g.n).filter fun x => ns.contains x).length = ns.length := by
  classical
  have hfn : ((List.range g.n).filter fun x => ns.contains x).Nodup :=
    (List.nodup_range g.n).filter _
  have hmem : ∀ x,
      x ∈ (List.range g.n).filter (fun x => ns.contains x) ↔ x ∈ ns := by
    intro x
    simp only [List.mem_filter, List.mem_range, List.elem_iff]
    exact ⟨fun h => h.2, fun h => ⟨hsub x h, h⟩⟩
  have hperm :
      List.Perm ((List.range g.n).filter fun x => ns.contains x) ns := by
    refine List.perm_of_nodup_nodup_toFinset_eq hfn hnd ?_
    ext x
    simp only [List.mem_toFinset]
    exact hmem x
  exact hperm.length_eq

/-- Marking the fresh successors visited raises the count by their
number. -/
theorem vcount_update {ns : List Nat} (hnd : ns.Nodup)
    (hsub : ∀ x ∈ ns, x < g.n) (hfresh : ∀ x ∈ ns, V x = false) :
    vcount g (fun x => V x || ns.contains x) = vcount g V + ns.length := by
  unfold vcount
  rw [filter_or_length V (fun x => ns.contains x) (List.range g.n)]
  congr 1
  rw [← filter_contains_length hnd hsub]
  congr 1
  refine List.filter_congr ?_
  intro x _
  by_cases hx : ns.contains x = true
  · have : V x = false := hfresh x (by simpa [List.elem_iff] using hx)
    rw [hx, this]
    rfl
  · have hx' : ns.contains x = false := by simpa using hx
    rw [hx']
    simp

end SuccsLemmas

/-- The trivial parent map traces every node to itself. -/
theorem bfsPathTo_none (g : Graph) (v : Nat) :
    bfsPathTo g (fun _ => none) v = [v] := by
  unfold bfsPathTo
  simp [tracePath]

/-- The invariant holds at BFS start-up. -/
theorem bfsInv_init (g : Graph) (bl : List (Nat × Nat)) (src dest : Nat) :
    BfsInv g bl src dest [src] (fun x => x == src) (fun _ => none) := by
  refine ⟨by simp, List.nodup_singleton src, ?_, ?_, ?_, ?_, rfl, ?_, ?_, ?_⟩
  · intro x hx
    simp only [List.mem_singleton] at hx
    simp [hx]
  · intro x hx
    simp only [beq_iff_eq] at hx
    exact Or.inl hx
  · intro hdest
    simp only [beq_iff_eq] at hdest
    simp [hdest]
  · intro u hu hnq v _
    simp only [beq_iff_eq] at hu
    subst hu
    simp at hnq
  · intro v hv hne
    simp only [beq_iff_eq] at hv
    exact absurd hv hne
  · refine ⟨0, [src], [], by simp, ?_, by simp, ?_, ?_,
      List.pairwise_singleton _ _, List.Pairwise.nil, by simp⟩
    · intro x hx
      simp only [List.mem_singleton] at hx
      subst hx
      exact hasDist_self
    · intro x e hx he
      have he0 : e = 0 := by omega
      subst he0
      simp [hx.eq_src]
    · intro x hx
      simp only [beq_iff_eq] at hx
      subst hx
      exact Or.inl ⟨0, hasDist_self, le_rfl⟩
  · intro v hv dv Q hdv hQ hQlen
    simp only [beq_iff_eq] at hv
    subst hv
    have hdv0 : dv = 0 := hdv.unique hasDist_self
    subst hdv0
    have hQeq : Q = [v] := by
      cases Q with
      | nil => exact absurd rfl hQ.nonempty
      | cons a l =>
        cases l with
        | nil =>
          have : a = v := by simpa using hQ.2.1
          rw [this]
        | cons b l' => simp at hQlen
    rw [hQeq, bfsPathTo_none]
    exact Or.inl rfl

/-- Normalizing the level frame at a nonempty queue: the dequeued head
sits in the current level (shifting the frame one level if the previous
one is exhausted). -/
theorem levels_head {g : Graph} {bl : List (Nat × Nat)}
    {src dest u : Nat} {rest : List Nat} {V : Nat → Bool}
    {P : Nat → Option Nat}
    (inv : BfsInv g bl src dest (u :: rest) V P) :
    ∃ d q1 q2, rest = q1 ++ q2 ∧
      HasDist g bl src u d ∧
      (∀ x ∈ q1, HasDist g bl src x d) ∧
      (∀ x ∈ q2, HasDist g bl src x (d + 1)) ∧
      (∀ x e, HasDist g bl src x e → e ≤ d → V x = true) ∧
      (∀ x, V x = true →
        (∃ e, HasDist g bl src x e ∧ e ≤ d) ∨ x ∈ q2) ∧
      (u :: q1).Pairwise
        (fun a b => LexLt (bfsPathTo g P a) (bfsPathTo g P b)) ∧
      q2.Pairwise (fun a b => LexLt (bfsPathTo g P a) (bfsPathTo g P b)) ∧
      (∀ x ∈ q2, ∀ w ∈ u :: q1, ∀ y,
        LexLt (bfsPathTo g P x) (bfsPathTo g P w ++ [y])) := by
  obtain ⟨d, q1, q2, hq, h1, h2, hsub, hsup, hp1, hp2, hcross⟩ := inv.levels
  cases q1 with
  | cons a q1' =>
    have ha : u = a := by simpa using congrArg List.head? hq
    subst ha
    have hrest : rest = q1' ++ q2 := by simpa using congrArg List.tail hq
    exact ⟨d, q1', q2, hrest, h1 u (by simp), fun x hx => h1 x (by simp [hx]),
      h2, hsub, hsup, hp1, hp2, hcross⟩
  | nil =>
    simp only [List.nil_append] at hq
    subst hq
    refine ⟨d + 1, rest, [], by simp, h2 u (by simp),
      fun x hx => h2 x (by simp [hx]), by simp, ?_, ?_, hp2,
      List.Pairwise.nil, by simp⟩
    · intro x e hx he
      rcases Nat.lt_or_ge e (d + 1) with hlt | hge
      · exact hsub x e hx (by omega)
      · have he' : e = d + 1 := by omega
        subst he'
        obtain ⟨w, hw, hedge⟩ := hx.decompose
        have hVw : V w = true := hsub w d hw le_rfl
        have hwq : w ∉ u :: rest := by
          intro hmem
          have : HasDist g bl src w (d + 1) := h2 w hmem
          have := hw.unique this
          omega
        exact inv.closed w hVw hwq x hedge
    · intro x hx
      rcases hsup x hx with ⟨e, he, hle⟩ | hmem
      · exact Or.inl ⟨e, he, by omega⟩
      · exact Or.inl ⟨d + 1, h2 x hmem, le_rfl⟩

/-- Walking the parent map from a visited node at distance `dv` produces,
after reversal, a shortest path from the source (`dv + 1` nodes). -/
theorem tracePath_spec {g : Graph} {bl : List (Nat × Nat)}
    {src dest : Nat} {q : List Nat} {V : Nat → Bool} {P : Nat → Option Nat}
    (inv : BfsInv g bl src dest q V P) :
    ∀ dv fuel v, V v = true → HasDist g bl src v dv → dv ≤ fuel →
      IsPath g bl (tracePath P fuel v).reverse src v ∧
      (tracePath P fuel v).length = dv + 1 := by
  intro dv
  induction dv with
  | zero =>
    intro fuel v _ hdist _
    have hv : v = src := hdist.eq_src
    subst hv
    cases fuel with
    | zero =>
      exact ⟨by simpa [tracePath] using isPath_singleton v, by simp [tracePath]⟩
    | succ f =>
      refine ⟨?_, ?_⟩ <;> simp [tracePath, inv.p_src]
      exact isPath_singleton v
  | succ e ih =>
    intro fuel v hV hdist hle
    have hvs : v ≠ src := by
      intro h
      subst h
      have := hdist.unique hasDist_self
      omega
    obtain ⟨u, du, hPv, hVu, hedge, hdu, hdv'⟩ := inv.p_spec v hV hvs
    have hdue : du = e := by
      have := hdist.unique hdv'
      omega
    subst hdue
    cases fuel with
    | zero => omega
    | succ f =>
      obtain ⟨ihp, ihl⟩ := ih f u hVu hdu (by omega)
      have htr : tracePath P (f + 1) v = v :: tracePath P f u := by
        simp [tracePath, hPv]
      rw [htr]
      refine ⟨?_, by simp [ihl]⟩
      rw [List.reverse_cons]
      exact ihp.concat hedge

/-- Once the fuel covers the distance, the traced chain does not depend
on the fuel. -/
theorem tracePath_fuel_eq {g : Graph} {bl : List (Nat × Nat)}
    {src dest : Nat} {q : List Nat} {V : Nat → Bool} {P : Nat → Option Nat}
    (inv : BfsInv g bl src dest q V P) :
    ∀ dv f f' v, V v = true → HasDist g bl src v dv → dv ≤ f → dv ≤ f' →
      tracePath P f v = tracePath P f' v := by
  intro dv
  induction dv with
  | zero =>
    intro f f' v _ hdist _ _
    have hv : v = src := hdist.eq_src
    subst hv
    cases f <;> cases f' <;> simp [tracePath, inv.p_src]
  | succ e ih =>
    intro f f' v hV hdist hle hle'
    have hvs : v ≠ src := by
      intro h
      subst h
      have := hdist.unique hasDist_self
      omega
    obtain ⟨u, du, hPv, hVu, _, hdu, hdv'⟩ := inv.p_spec v hV hvs
    have hdue : du = e := by
      have := hdist.unique hdv'
      omega
    subst hdue
    cases f with
    | zero => omega
    | succ f0 =>
      cases f' with
      | zero => omega
      | succ f0' =>
        simp only [tracePath, hPv]
        rw [ih f0 f0' u hVu hdu (by omega) (by omega)]

/-- Unfolding of one `tracePath` step. -/
theorem tracePath_succ (Q : Nat → Option Nat) (f v : Nat) :
    tracePath Q (f + 1) v =
      match Q v with
      | none => [v]
      | some u => v :: tracePath Q f u := rfl

/-- Writing parent entries only at unvisited nodes leaves the chains of
visited nodes untouched. -/
theorem tracePath_stable {g : Graph} {bl : List (Nat × Nat)}
    {src dest : Nat} {q : List Nat} {V : Nat → Bool} {P : Nat → Option Nat}
    (inv : BfsInv g bl src dest q V P) {ns : List Nat} {u0 : Nat}
    (hfresh : ∀ x ∈ ns, V x = false) :
    ∀ f v, V v = true →
      tracePath (fun x => if ns.contains x then some u0 else P x) f v =
        tracePath P f v := by
  intro f
  induction f with
  | zero => intro v _; rfl
  | succ f ih =>
    intro v hv
    have hvns : v ∉ ns := by
      intro h
      rw [hfresh v h] at hv
      exact Bool.noConfusion hv
    have hQv : (if ns.contains v = true then some u0 else P v) = P v :=
      if_neg (by simpa [List.elem_iff] using hvns)
    rw [tracePath_succ, tracePath_succ]
    rw [hQv]
    cases hP : P v with
    | none => rfl
    | some w =>
      have hvsrc : v ≠ src := by
        intro h
        subst h
        rw [inv.p_src] at hP
        exact Option.noConfusion hP
      obtain ⟨w', _, hPv', hVw', _, _, _⟩ := inv.p_spec v hv hvsrc
      have hww : w' = w := by
        rw [hP] at hPv'
        exact (Option.some.inj hPv').symm
      subst hww
      simp only
      rw [ih w' hVw']

/-- The reconstructed path of a visited node has exactly `dist + 1`
nodes. -/
theorem bfsPathTo_len {g : Graph} {bl : List (Nat × Nat)}
    {src dest : Nat} {q : List Nat} {V : Nat → Bool} {P : Nat → Option Nat}
    (inv : BfsInv g bl src dest q V P) (hsrc : src < g.n)
    {v dv : Nat} (hV : V v = true) (hdv : HasDist g bl src v dv) :
    (bfsPathTo g P v).length = dv + 1 := by
  have hdn : dv < g.n := hdv.lt_n hsrc
  have := (tracePath_spec inv dv (g.n + 1) v hV hdv (by omega)).2
  unfold bfsPathTo
  rw [List.length_reverse]
  exact this

/-- `bfsPathTo` after the step's parent update, for previously visited
nodes. -/
theorem bfsPathTo_stable {g : Graph} {bl : List (Nat × Nat)}
    {src dest : Nat} {q : List Nat} {V : Nat → Bool} {P : Nat → Option Nat}
    (inv : BfsInv g bl src dest q V P) {ns : List Nat} {u0 : Nat}
    (hfresh : ∀ x ∈ ns, V x = false) {v : Nat} (hv : V v = true) :
    bfsPathTo g (fun x => if ns.contains x then some u0 else P x) v =
      bfsPathTo g P v := by
  unfold bfsPathTo
  rw [tracePath_stable inv hfresh (g.n + 1) v hv]

/-- `bfsPathTo` of a freshly discovered node: the head chain extended by
the node itself. -/
theorem bfsPathTo_fresh {g : Graph} {bl : List (Nat × Nat)}
    {src dest : Nat} {q : List Nat} {V : Nat → Bool} {P : Nat → Option Nat}
    (inv : BfsInv g bl src dest q V P) (hsrc : src < g.n)
    {ns : List Nat} {u0 : Nat} (hfresh : ∀ x ∈ ns, V x = false)
    {du : Nat} (hVu : V u0 = true) (hdu : HasDist g bl src u0 du)
    {v : Nat} (hv : v ∈ ns) :
    bfsPathTo g (fun x => if ns.contains x then some u0 else P x) v =
      bfsPathTo g P u0 ++ [v] := by
  have hvns : ns.contains v = true := List.elem_iff.mpr hv
  have hdn : du < g.n := hdu.lt_n hsrc
  unfold bfsPathTo
  have h1 : tracePath (fun x => if ns.contains x then some u0 else P x)
      (g.n + 1) v =
      v :: tracePath (fun x => if ns.contains x then some u0 else P x) g.n u0 := by
    simp [tracePath, hv]
  rw [h1, tracePath_stable inv hfresh g.n u0 hVu,
    tracePath_fuel_eq inv du g.n (g.n + 1) u0 hVu hdu (by omega) (by omega)]
  simp

/-- Pointwise strengthening of `Pairwise` using membership. -/
theorem pairwise_congr_of_mem {l : List Nat} {R S : Nat → Nat → Prop}
    (h : l.Pairwise R) (himp : ∀ a ∈ l, ∀ b ∈ l, R a b → S a b) :
    l.Pairwise S := by
  induction l with
  | nil => exact List.Pairwise.nil
  | cons a rest ih =>
    rw [List.pairwise_cons] at h ⊢
    refine ⟨fun b hb => himp a (by simp) b (by simp [hb]) (h.1 b hb), ?_⟩
    exact ih h.2 (fun x hx y hy hr => himp x (by simp [hx]) y (by simp [hy]) hr)

/-- One non-terminal loop iteration preserves the invariant. -/
theorem bfsInv_step {g : Graph} {bl : List (Nat × Nat)}
    {src dest u : Nat} {rest : List Nat} {V : Nat → Bool}
    {P : Nat → Option Nat}
    (inv : BfsInv g bl src dest (u :: rest) V P)
    (hne : u ≠ dest) (hsrc : src < g.n) :
    BfsInv g bl src dest (rest ++ succs g bl V u)
      (fun x => V x || (succs g bl V u).contains x)
      (fun x => if (succs g bl V u).contains x then some u else P x) := by
  set ns := succs g bl V u with hns
  have hVu : V u = true := inv.q_vis u (by simp)
  have hu_lt : u < g.n := by
    rcases inv.vis_lt u hVu with rfl | h
    · exact hsrc
    · exact h
  have hns_fresh : ∀ x ∈ ns, V x = false := succs_fresh
  have hns_lt : ∀ x ∈ ns, x < g.n := succs_lt
  have hns_nodup : ns.Nodup := succs_nodup
  have hns_edge : ∀ x ∈ ns, EdgeOK g bl u x := succs_edgeOK hu_lt
  have hns_notin : ∀ x ∈ ns, x ∉ u :: rest := by
    intro x hx hmem
    have := inv.q_vis x hmem
    rw [hns_fresh x hx] at this
    exact Bool.noConfusion this
  obtain ⟨d, q1, q2, hrest, hud, hq1, hq2, hsub, hsup, hp1, hp2, hcross⟩ :=
    levels_head inv
  -- every fresh successor sits exactly one level below the head
  have hns_dist : ∀ x ∈ ns, HasDist g bl src x (d + 1) := by
    intro x hx
    have hre : ReachLe g bl src x (d + 1) := hud.extend (hns_edge x hx)
    have hnr : ¬ ReachLe g bl src x d := by
      intro hr
      obtain ⟨e, he⟩ := Reachable.hasDist ⟨hr.choose, hr.choose_spec.1⟩
      have hed : e ≤ d := he.2 d hr
      have := hsub x e he hed
      rw [hns_fresh x hx] at this
      exact Bool.noConfusion this
    exact hasDist_of_reachLe_succ hre hnr
  have hVq1 : ∀ w ∈ q1, V w = true := by
    intro w hw
    refine inv.q_vis w (List.mem_cons_of_mem u ?_)
    rw [hrest]
    exact List.mem_append.mpr (Or.inl hw)
  have hVq2 : ∀ w ∈ q2, V w = true := by
    intro w hw
    refine inv.q_vis w (List.mem_cons_of_mem u ?_)
    rw [hrest]
    exact List.mem_append.mpr (Or.inr hw)
  have hstab : ∀ x, V x = true →
      bfsPathTo g (fun y => if ns.contains y then some u else P y) x =
        bfsPathTo g P x :=
    fun x hx => bfsPathTo_stable inv hns_fresh hx
  have hfreshTP : ∀ y ∈ ns,
      bfsPathTo g (fun z => if ns.contains z then some u else P z) y =
        bfsPathTo g P u ++ [y] :=
    fun y hy => bfsPathTo_fresh inv hsrc hns_fresh hVu hud hy
  have hlen_u : (bfsPathTo g P u).length = d + 1 :=
    bfsPathTo_len inv hsrc hVu hud
  have hlen_q1 : ∀ w ∈ q1, (bfsPathTo g P w).length = d + 1 := fun w hw =>
    bfsPathTo_len inv hsrc (hVq1 w hw) (hq1 w hw)
  refine ⟨?_, ?_, ?_, ?_, ?_, ?_, ?_, ?_, ?_, ?_⟩
  · simp [inv.src_vis]
  · refine List.Nodup.append ?_ hns_nodup ?_
    · exact (List.nodup_cons.mp inv.q_nodup).2
    · intro x hx hx'
      exact hns_notin x hx' (by simp [hx])
  · intro x hx
    rcases List.mem_append.mp hx with h | h
    · simp [inv.q_vis x (by simp [h])]
    · simp only [Bool.or_eq_true, List.elem_iff]
      exact Or.inr h
  · intro x hx
    rcases Bool.or_eq_true_iff.mp hx with h | h
    · exact inv.vis_lt x h
    · exact Or.inr (hns_lt x (List.elem_iff.mp h))
  · intro hdest
    rcases Bool.or_eq_true_iff.mp hdest with h | h
    · have := inv.dest_in_q h
      rcases List.mem_cons.mp this with rfl | h'
      · exact absurd rfl hne.symm
      · exact List.mem_append.mpr (Or.inl h')
    · exact List.mem_append.mpr (Or.inr (List.elem_iff.mp h))
  · intro w hw hwq v hedge
    rcases Bool.or_eq_true_iff.mp hw with h | h
    · -- an old visited node, now dequeued or still queued
      by_cases hwu : w = u
      · subst hwu
        by_cases hvV : V v = true
        · simp [hvV]
        · have hvns : v ∈ ns := by
            rw [hns, mem_succs]
            refine ⟨hedge.2.1, hedge.2.2.1, ?_, hedge.2.2.2⟩
            simpa using hvV
          simp only [Bool.or_eq_true, List.elem_iff]
          exact Or.inr hvns
      · have hwold : w ∉ u :: rest := by
          intro hmem
          rcases List.mem_cons.mp hmem with rfl | h'
          · exact hwu rfl
          · exact hwq (List.mem_append.mpr (Or.inl h'))
        simp [inv.closed w h hwold v hedge]
    · -- w itself in `ns` would contradict its being dequeued
      exact absurd (List.mem_append.mpr (Or.inr (List.elem_iff.mp h))) hwq
  · have : src ∉ ns := by
      intro h
      have := hns_fresh src h
      rw [inv.src_vis] at this
      exact Bool.noConfusion this
    simp only [List.elem_iff]
    rw [if_neg this]
    exact inv.p_src
  · intro v hv hvs
    by_cases hvns : v ∈ ns
    · refine ⟨u, d, ?_, by simp [hVu], hns_edge v hvns, hud, hns_dist v hvns⟩
      simp only [List.elem_iff]
      rw [if_pos hvns]
    · have hvV : V v = true := by
        rcases Bool.or_eq_true_iff.mp hv with h | h
        · exact h
        · exact absurd (List.elem_iff.mp h) hvns
      obtain ⟨w, du, hPv, hVw, hedge, hdw, hdv⟩ := inv.p_spec v hvV hvs
      refine ⟨w, du, ?_, by simp [hVw], hedge, hdw, hdv⟩
      simp only [List.elem_iff]
      rw [if_neg hvns]
      exact hPv
  · refine ⟨d, q1, q2 ++ ns, by rw [hrest, List.append_assoc], hq1, ?_, ?_,
      ?_, ?_, ?_, ?_⟩
    · intro x hx
      rcases List.mem_append.mp hx with h | h
      · exact hq2 x h
      · exact hns_dist x h
    · intro x e hx he
      simp [hsub x e hx he]
    · intro x hx
      rcases Bool.or_eq_true_iff.mp hx with h | h
      · rcases hsup x h with h' | h'
        · exact Or.inl h'
        · exact Or.inr (List.mem_append.mpr (Or.inl h'))
      · exact Or.inr (List.mem_append.mpr (Or.inr (List.elem_iff.mp h)))
    · -- the level-`d` remainder stays sorted under the updated parents
      refine pairwise_congr_of_mem (List.pairwise_cons.mp hp1).2 ?_
      intro a ha b hb hr
      rw [hstab a (hVq1 a ha), hstab b (hVq1 b hb)]
      exact hr
    · -- the level-`d+1` queue with the fresh tail stays sorted
      rw [List.pairwise_append]
      refine ⟨?_, ?_, ?_⟩
      · refine pairwise_congr_of_mem hp2 ?_
        intro a ha b hb hr
        rw [hstab a (hVq2 a ha), hstab b (hVq2 b hb)]
        exact hr
      · have hlt : ns.Pairwise (· < ·) := by
          rw [hns]
          unfold succs
          exact (List.pairwise_lt_range g.n).filter _
        refine pairwise_congr_of_mem hlt ?_
        intro a ha b hb hr
        rw [hfreshTP a ha, hfreshTP b hb]
        exact lexLt_concat_lt hr
      · intro x hx y hy
        rw [hstab x (hVq2 x hx), hfreshTP y hy]
        exact hcross x hx u (by simp) y
    · -- cross ordering between the old level-`d+1` nodes, the fresh
      -- nodes, and whatever will later be appended below the remainder
      intro x hx w hw y
      rw [hstab w (hVq1 w hw)]
      rcases List.mem_append.mp hx with hx2 | hxns
      · rw [hstab x (hVq2 x hx2)]
        exact hcross x hx2 w (List.mem_cons_of_mem u hw) y
      · rw [hfreshTP x hxns]
        refine lexLt_append ?_ ?_ [x] [y]
        · exact (List.pairwise_cons.mp hp1).1 w hw
        · rw [hlen_u, hlen_q1 w hw]
  · -- parent-chain minimality
    intro v hv dv Q hdv hQ hQlen
    by_cases hvns : v ∈ ns
    · have hdveq : dv = d + 1 := hdv.unique (hns_dist v hvns)
      subst hdveq
      have hQ2 : 2 ≤ Q.length := by omega
      obtain ⟨Q1, w, hQeq, hQ1, hedge, hQl1⟩ := hQ.concat_elim hQ2
      have hQ1len : Q1.length = d + 1 := by omega
      obtain ⟨e, he⟩ := Reachable.hasDist ⟨Q1, hQ1⟩
      have hed : e ≤ d := he.2 d ⟨Q1, hQ1, by omega⟩
      have heq : e = d := by
        by_contra hne'
        have : ReachLe g bl src v (e + 1) := he.extend hedge
        have := (hns_dist v hvns).2 (e + 1) this
        omega
      subst heq
      have hVw : V w = true := hsub w e he le_rfl
      have hwq : w ∈ u :: rest := by
        by_contra hnq
        have := inv.closed w hVw hnq v hedge
        rw [hns_fresh v hvns] at this
        exact Bool.noConfusion this
      have hwq1 : w = u ∨ w ∈ q1 := by
        rcases List.mem_cons.mp hwq with rfl | hmem
        · exact Or.inl rfl
        · rw [hrest] at hmem
          rcases List.mem_append.mp hmem with h1 | h2
          · exact Or.inr h1
          · exfalso
            have := (hq2 w h2).unique he
            omega
      have hle_uw : LexLe (bfsPathTo g P u) (bfsPathTo g P w) := by
        rcases hwq1 with rfl | hmem
        · exact Or.inl rfl
        · exact Or.inr ((List.pairwise_cons.mp hp1).1 w hmem)
      have hmin_w : LexLe (bfsPathTo g P w) Q1 :=
        inv.p_min w hVw e Q1 he hQ1 (by omega)
      have hle_uQ1 : LexLe (bfsPathTo g P u) Q1 :=
        lexLe_trans hle_uw hmin_w
      have hlenQ1 : (bfsPathTo g P u).length = Q1.length := by
        rw [hlen_u]
        omega
      have hfin := lexLe_concat hlenQ1 hle_uQ1 v
      rw [hQeq, hfreshTP v hvns]
      exact hfin
    · have hvV : V v = true := by
        rcases Bool.or_eq_true_iff.mp hv with h | h
        · exact h
        · exact absurd (List.elem_iff.mp h) hvns
      rw [hstab v hvV]
      exact inv.p_min v hvV dv Q hdv hQ hQlen

/-- Any path out of the visited set would cross a closed frontier: with
an empty queue the destination is unreachable. -/
theorem closed_not_reachable {g : Graph} {bl : List (Nat × Nat)}
    {src dest : Nat} {V : Nat → Bool} {P : Nat → Option Nat}
    (inv : BfsInv g bl src dest [] V P) : ¬ Reachable g bl src dest := by
  rintro ⟨p, hp⟩
  have hcl : ∀ u v, V u = true → EdgeOK g bl u v → V v = true := by
    intro u v hu hedge
    exact inv.closed u hu (by simp) v hedge
  have hend : ∀ (p : List Nat) (s t : Nat),
      IsPath g bl p s t → V s = true → V t = true := by
    intro p
    induction p with
    | nil =>
      intro s t hp'
      exact absurd rfl hp'.nonempty
    | cons a rest ihp =>
      intro s t hp' hVs
      have ha : a = s := by simpa using hp'.2.1
      cases rest with
      | nil =>
        have hat : a = t := by simpa using hp'.2.2
        rw [← hat, ha]
        exact hVs
      | cons b rest' =>
        have hedge : EdgeOK g bl a b := (List.chain'_cons.mp hp'.1).1
        have htail : IsPath g bl (b :: rest') b t :=
          ⟨(List.chain'_cons.mp hp'.1).2, rfl, by simpa using hp'.2.2⟩
        have hVb : V b = true := hcl a b (ha ▸ hVs) hedge
        exact ihp b t htail hVb
  have hVd : V dest = true := hend p src dest hp inv.src_vis
  have := inv.dest_in_q hVd
  simp at this

/-- Correctness of the BFS loop, by induction on the fuel: with adequate
fuel, exhaustion implies unreachability, and success hands back a parent
map whose trace from the destination is a shortest path. -/
theorem bfsAux_correct {g : Graph} {bl : List (Nat × Nat)}
    {src dest : Nat} (hsrc : src < g.n) :
    ∀ (fuel : Nat) (q : List Nat) (V : Nat → Bool) (P : Nat → Option Nat),
      BfsInv g bl src dest q V P →
      q.length + (g.n - vcount g V) ≤ fuel →
      (bfsAux g bl dest fuel q V P = none → ¬ Reachable g bl src dest) ∧
      (∀ P', bfsAux g bl dest fuel q V P = some P' →
        ∃ d, HasDist g bl src dest d ∧
          IsPath g bl (tracePath P' (g.n + 1) dest).reverse src dest ∧
          (tracePath P' (g.n + 1) dest).length = d + 1 ∧
          (∀ Q, IsPath g bl Q src dest → Q.length = d + 1 →
            LexLe (bfsPathTo g P' dest) Q)) := by
  intro fuel
  induction fuel with
  | zero =>
    intro q V P inv hfuel
    have hq : q = [] := by
      cases q with
      | nil => rfl
      | cons a l =>
        exfalso
        simp only [List.length_cons] at hfuel
        omega
    subst hq
    exact ⟨fun _ => closed_not_reachable inv, fun P' h => by simp [bfsAux] at h⟩
  | succ fuel ih =>
    intro q V P inv hfuel
    cases q with
    | nil =>
      exact ⟨fun _ => closed_not_reachable inv,
        fun P' h => by simp [bfsAux] at h⟩
    | cons u rest =>
      by_cases hud : u = dest
      · have hres : bfsAux g bl dest (fuel + 1) (u :: rest) V P = some P := by
          simp [bfsAux, hud]
        constructor
        · intro h
          rw [hres] at h
          exact Option.noConfusion h
        · intro P' h
          rw [hres] at h
          have hPP : P = P' := Option.some.inj h
          subst hPP
          obtain ⟨d, q1, q2, _, hud_dist, _, _, _, _, _, _, _⟩ :=
            levels_head inv
          rw [hud] at hud_dist
          have hVd : V dest = true := by
            have := inv.q_vis u (by simp)
            rw [hud] at this
            exact this
          have hdn : d < g.n := hud_dist.lt_n hsrc
          obtain ⟨hp, hl⟩ :=
            tracePath_spec inv d (g.n + 1) dest hVd hud_dist (by omega)
          refine ⟨d, hud_dist, hp, hl, ?_⟩
          intro Q hQpath hQlen
          exact inv.p_min dest hVd d Q hud_dist hQpath hQlen
      · have inv' := bfsInv_step inv hud hsrc
        have hvc : vcount g (fun x => V x || (succs g bl V u).contains x) =
            vcount g V + (succs g bl V u).length :=
          vcount_update succs_nodup succs_lt succs_fresh
        have hvcle : vcount g (fun x => V x || (succs g bl V u).contains x)
            ≤ g.n := vcount_le
        have hfuel' : (rest ++ succs g bl V u).length +
            (g.n - vcount g (fun x => V x || (succs g bl V u).contains x))
            ≤ fuel := by
          simp only [List.length_append, List.length_cons] at hfuel ⊢
          omega
        have hres : bfsAux g bl dest (fuel + 1) (u :: rest) V P =
            bfsAux g bl dest fuel (rest ++ succs g bl V u)
              (fun x => V x || (succs g bl V u).contains x)
              (fun x => if (succs g bl V u).contains x then some u else P x) := by
          simp [bfsAux, hud]
        rw [hres]
        exact ih (rest ++ succs g bl V u) _ _ inv' hfuel'

/-- Full functional correctness of the search-and-reconstruct pipeline:
`none` exactly on unreachability, and any returned path is a genuine
blocked-edge-avoiding path of minimal hop count. -/
theorem shortest_path_spec (g : Graph) (bl : List (Nat × Nat))
    (src dest : Nat) (hsrc : src < g.n) :
    (shortest_path g src dest bl = none ↔ ¬ Reachable g bl src dest) ∧
    (∀ p, shortest_path g src dest bl = some p →
      IsPath g bl p src dest ∧
      (∀ q, IsPath g bl q src dest → p.length ≤ q.length) ∧
      (∀ q, IsPath g bl q src dest → q.length = p.length → LexLe p q)) := by
  have hadeq : ([src] : List Nat).length +
      (g.n - vcount g (fun x => x == src)) ≤ g.n + 1 := by
    simp only [List.length_singleton]
    omega
  have h := bfsAux_correct hsrc (g.n + 1) [src] (fun x => x == src)
    (fun _ => none) (bfsInv_init g bl src dest) hadeq
  constructor
  · constructor
    · intro hnone
      cases hb : bfs_with_blocked_edges g src dest bl with
      | none =>
        unfold bfs_with_blocked_edges at hb
        exact h.1 hb
      | some P =>
        rw [shortest_path, hb] at hnone
        exact Option.noConfusion hnone
    · intro hnr
      cases hb : bfs_with_blocked_edges g src dest bl with
      | none => rw [shortest_path, hb]
      | some P =>
        unfold bfs_with_blocked_edges at hb
        obtain ⟨d, hd, _, _⟩ := h.2 P hb
        exact absurd hd.reachable hnr
  · intro p hp
    cases hb : bfs_with_blocked_edges g src dest bl with
    | none =>
      rw [shortest_path, hb] at hp
      exact Option.noConfusion hp
    | some P =>
      rw [shortest_path, hb] at hp
      have hp' : (tracePath P (g.n + 1) dest).reverse = p :=
        Option.some.inj hp
      unfold bfs_with_blocked_edges at hb
      obtain ⟨d, hd, hpath, hlen, hlex⟩ := h.2 P hb
      rw [hp'] at hpath
      have hplen : p.length = d + 1 := by
        rw [← hp', List.length_reverse, hlen]
      refine ⟨hpath, ?_, ?_⟩
      · intro q hq
        have hq1 : 1 ≤ q.length := by
          cases q with
          | nil => exact absurd rfl hq.nonempty
          | cons a l => simp
        have hrle : ReachLe g bl src dest (q.length - 1) := by
          refine ⟨q, hq, by omega⟩
        have := hd.2 (q.length - 1) hrle
        omega
      · intro q hq hqlen
        have hbp : bfsPathTo g P dest = p := hp'
        have := hlex q hq (by omega)
        rw [hbp] at this
        exact this

/-! ## Alternate-route search -/

theorem route_equals_iff (a b : List Nat) : route_equals a b = true ↔ a = b := by
  induction a generalizing b with
  | nil =>
    cases b with
    | nil => simp [route_equals]
    | cons y ys => simp [route_equals]
  | cons x xs ih =>
    cases b with
    | nil => simp [route_equals]
    | cons y ys => simp [route_equals, ih]

/-- The `find_alternates` loop invariant: starting from a short,
duplicate-free accumulator, the fold only appends new candidates, in
index order, never the primary, never twice. -/
theorem altFold_spec (g : Graph) (primary : List Nat) :
    ∀ (l : List Nat) (acc : List (List Nat)),
      acc.Nodup → acc.length ≤ MAX_ALTERNATES →
      ∃ added : List (List Nat),
        l.foldl (altStep g primary) acc = acc ++ added ∧
        (added.map some).Sublist (l.map (altCandidate g primary)) ∧
        (∀ p ∈ added, p ∉ acc ∧ p ≠ primary) ∧
        (acc ++ added).Nodup ∧
        (acc ++ added).length ≤ MAX_ALTERNATES := by
  intro l
  induction l with
  | nil =>
    intro acc hnd hlen
    exact ⟨[], by simp, by simp, by simp, by simpa using hnd, by simpa using hlen⟩
  | cons e l ih =>
    intro acc hnd hlen
    by_cases hfull : MAX_ALTERNATES ≤ acc.length
    · obtain ⟨added, hfold, hsl, hnew, hnd', hlen'⟩ := ih acc hnd hlen
      refine ⟨added, ?_, hsl.trans (List.sublist_cons_self _ _), hnew, hnd', hlen'⟩
      simp only [List.foldl_cons, altStep, if_pos hfull]
      exact hfold
    · cases hcand : altCandidate g primary e with
      | none =>
        obtain ⟨added, hfold, hsl, hnew, hnd', hlen'⟩ := ih acc hnd hlen
        refine ⟨added, ?_, hsl.trans (List.sublist_cons_self _ _), hnew, hnd', hlen'⟩
        simp only [List.foldl_cons, altStep, if_neg hfull, hcand]
        exact hfold
      | some path =>
        by_cases hdup :
            (route_equals path primary ||
              acc.any fun a => route_equals path a) = true
        · obtain ⟨added, hfold, hsl, hnew, hnd', hlen'⟩ := ih acc hnd hlen
          refine ⟨added, ?_, hsl.trans (List.sublist_cons_self _ _), hnew,
            hnd', hlen'⟩
          simp only [List.foldl_cons, altStep, if_neg hfull, hcand, hdup,
            if_pos]
          exact hfold
        · have hnp : path ≠ primary ∧ path ∉ acc := by
            simp only [Bool.or_eq_true, List.any_eq_true, route_equals_iff,
              not_or, not_exists] at hdup
            push_neg at hdup
            refine ⟨hdup.1, fun hmem => hdup.2 path hmem rfl⟩
          have hnd2 : (acc ++ [path]).Nodup := by
            rw [List.nodup_append]
            refine ⟨hnd, List.nodup_singleton path, ?_⟩
            intro x hx hx'
            simp only [List.mem_singleton] at hx'
            subst hx'
            exact hnp.2 hx
          have hlen2 : (acc ++ [path]).length ≤ MAX_ALTERNATES := by
            simp only [List.length_append, List.length_singleton]
            omega
          obtain ⟨added, hfold, hsl, hnew, hnd', hlen'⟩ := ih (acc ++ [path]) hnd2 hlen2
          refine ⟨path :: added, ?_, ?_, ?_, ?_, ?_⟩
          · simp only [List.foldl_cons, altStep, if_neg hfull, hcand,
              if_neg hdup]
            rw [hfold, List.append_assoc]
            rfl
          · simp only [List.map_cons]
            rw [← hcand]
            exact hsl.cons₂ _
          · intro p hp
            rcases List.mem_cons.mp hp with rfl | hp'
            · exact ⟨hnp.2, hnp.1⟩
            · have := hnew p hp'
              refine ⟨fun hmem => this.1 (List.mem_append.mpr (Or.inl hmem)),
                this.2⟩
          · rw [show acc ++ path :: added = (acc ++ [path]) ++ added by simp]
            exact hnd'
          · rw [show acc ++ path :: added = (acc ++ [path]) ++ added by simp]
            exact hlen'

/-- A path with all blocked edges removed is a path in the bare graph. -/
theorem IsPath.unblock {g : Graph} {bl : List (Nat × Nat)}
    {p : List Nat} {s t : Nat} (h : IsPath g bl p s t) :
    IsPath g [] p s t := by
  obtain ⟨hc, hh, hl⟩ := h
  refine ⟨hc.imp ?_, hh, hl⟩
  intro a b hab
  exact ⟨hab.1, hab.2.1, hab.2.2.1, rfl⟩

/-! ## Registry lemmas -/

theorem strTake_eq_self {s : String} {n : Nat} (h : s.data.length ≤ n) :
    strTake n s = s := by
  unfold strTake
  rw [List.take_of_length_le h]

theorem normalize_length_le (s : String) : (normalize s).data.length ≤ 79 := by
  unfold normalize normalizeList
  exact (List.length_take_le _ _)

theorem findStation_none_iff (st : List Station) (key : String) :
    findStation st key = none ↔ ∀ s ∈ st, s.key_name ≠ key := by
  induction st with
  | nil => simp [findStation]
  | cons a rest ih =>
    simp only [findStation]
    by_cases ha : a.key_name == key
    · rw [if_pos ha]
      rw [beq_iff_eq] at ha
      simp [ha]
    · rw [if_neg ha]
      rw [beq_iff_eq] at ha
      constructor
      · intro h
        have hnone : findStation rest key = none := by
          cases hr : findStation rest key with
          | none => rfl
          | some i =>
            rw [hr] at h
            exact Option.noConfusion h
        have hrest := ih.mp hnone
        intro s hs
        rcases List.mem_cons.mp hs with rfl | hs'
        · exact ha
        · exact hrest s hs'
      · intro h
        have hnone : findStation rest key = none :=
          ih.mpr (fun s hs => h s (List.mem_cons_of_mem a hs))
        rw [hnone]
        rfl

/-- A successful lookup yields an in-range index with a matching key. -/
theorem findStation_some {st : List Station} {key : String} {i : Nat}
    (h : findStation st key = some i) :
    i < st.length ∧ (stationAt st i).key_name = key := by
  induction st generalizing i with
  | nil => exact Option.noConfusion h
  | cons a rest ih =>
    simp only [findStation] at h
    by_cases ha : a.key_name == key
    · rw [if_pos ha] at h
      have : i = 0 := by
        have := Option.some.inj h
        omega
      subst this
      rw [beq_iff_eq] at ha
      exact ⟨by simp, by simpa [stationAt] using ha⟩
    · rw [if_neg ha] at h
      cases hr : findStation rest key with
      | none =>
        rw [hr] at h
        exact Option.noConfusion h
      | some j =>
        rw [hr] at h
        have hij : i = j + 1 := (Option.some.inj h).symm
        subst hij
        obtain ⟨hj, hkey⟩ := ih hr
        refine ⟨by simpa using hj, ?_⟩
        simpa [stationAt] using hkey

/-- Looking a key up in a table extended by a station carrying that key
finds it right past the old entries. -/
theorem findStation_append {st : List Station} {key : String} {a : Station}
    (h : findStation st key = none) (ha : a.key_name = key) :
    findStation (st ++ [a]) key = some st.length := by
  induction st with
  | nil =>
    simp [findStation, ha]
  | cons b rest ih =>
    simp only [findStation] at h ⊢
    by_cases hb : b.key_name == key
    · rw [if_pos hb] at h
      exact Option.noConfusion h
    · rw [if_neg hb] at h ⊢
      have hnone : findStation rest key = none := by
        cases hr : findStation rest key with
        | none => rfl
        | some i =>
          rw [hr] at h
          exact Option.noConfusion h
      simp only [List.append_eq]
      rw [ih hnone]
      simp

/-- A modification that preserves key names is invisible to the lookup. -/
theorem findStation_listModify {st : List Station} {key : String}
    {f : Station → Station} (hf : ∀ s, (f s).key_name = s.key_name) :
    ∀ i, findStation (listModify st i f) key = findStation st key := by
  induction st with
  | nil => intro i; cases i <;> rfl
  | cons a rest ih =>
    intro i
    cases i with
    | zero =>
      simp only [listModify, findStation, hf a]
    | succ n =>
      simp only [listModify, findStation, ih n]

/-- After any registration the key is present, at the returned index. -/
theorem find_or_add_finds (st : List Station) (key display : String)
    (p : Nat) (hkey : key.data.length ≤ 79) :
    findStation (find_or_add_by_key_with_plan st key display p).2 key =
      some (find_or_add_by_key_with_plan st key display p).1 := by
  unfold find_or_add_by_key_with_plan
  cases h : findStation st key with
  | some i => simpa using h
  | none =>
    simp only
    exact findStation_append h (by simp [strTake_eq_self hkey])

theorem listModify_length {l : List α} {i : Nat} {f : α → α} :
    (listModify l i f).length = l.length := by
  induction l generalizing i with
  | nil => rfl
  | cons a rest ih =>
    cases i with
    | zero => rfl
    | succ n => simpa [listModify] using ih

theorem listModify_getD_self {l : List α} {i : Nat} {f : α → α} {d : α}
    (h : i < l.length) : (listModify l i f).getD i d = f (l.getD i d) := by
  induction l generalizing i with
  | nil => simp at h
  | cons a rest ih =>
    cases i with
    | zero => rfl
    | succ n =>
      simp only [listModify, List.getD_cons_succ]
      exact ih (by simpa using h)

theorem listModify_getD_ne {l : List α} {i j : Nat} {f : α → α} {d : α}
    (h : i ≠ j) : (listModify l i f).getD j d = l.getD j d := by
  induction l generalizing i j with
  | nil => cases i <;> rfl
  | cons a rest ih =>
    cases i with
    | zero =>
      cases j with
      | zero => exact absurd rfl h
      | succ m => rfl
    | succ n =>
      cases j with
      | zero => rfl
      | succ m =>
        simp only [listModify, List.getD_cons_succ]
        exact ih (by omega)

theorem listModify_getD_ge {l : List α} {i : Nat} {f : α → α} {d : α}
    (h : l.length ≤ i) : (listModify l i f).getD i d = l.getD i d := by
  induction l generalizing i with
  | nil => rfl
  | cons a rest ih =>
    cases i with
    | zero => simp at h
    | succ n =>
      simp only [listModify, List.getD_cons_succ]
      exact ih (by simpa using h)

theorem add_line_tag_length {st : List Station} {id : Nat} {line : String} :
    (add_line_tag st id line).length = st.length :=
  listModify_length

/-- Tagging touches only the `lines` field of the tagged station. -/
theorem add_line_tag_stationAt {st : List Station} {id : Nat} {line : String}
    (hid : id < st.length) :
    stationAt (add_line_tag st id line) id =
      (if (stationAt st id).lines.contains line then stationAt st id
       else { stationAt st id with
              lines := (stationAt st id).lines ++ [strTake 29 line] }) := by
  unfold add_line_tag stationAt
  rw [listModify_getD_self hid]

theorem add_line_tag_stationAt_ne {st : List Station} {id j : Nat}
    {line : String} (h : id ≠ j) :
    stationAt (add_line_tag st id line) j = stationAt st j := by
  unfold add_line_tag stationAt
  rw [listModify_getD_ne h]

theorem add_line_tag_display {st : List Station} {id : Nat} {line : String}
    (j : Nat) :
    (stationAt (add_line_tag st id line) j).display_name =
      (stationAt st j).display_name := by
  by_cases hj : id = j
  · subst hj
    by_cases hid : id < st.length
    · rw [add_line_tag_stationAt hid]
      split <;> rfl
    · unfold add_line_tag stationAt
      rw [listModify_getD_ge (by omega)]
  · rw [add_line_tag_stationAt_ne hj]

theorem add_line_tag_planned {st : List Station} {id : Nat} {line : String}
    (j : Nat) :
    (stationAt (add_line_tag st id line) j).planned =
      (stationAt st j).planned := by
  by_cases hj : id = j
  · subst hj
    by_cases hid : id < st.length
    · rw [add_line_tag_stationAt hid]
      split <;> rfl
    · unfold add_line_tag stationAt
      rw [listModify_getD_ge (by omega)]
  · rw [add_line_tag_stationAt_ne hj]

theorem add_line_tag_key {st : List Station} {id : Nat} {line : String}
    (j : Nat) :
    (stationAt (add_line_tag st id line) j).key_name =
      (stationAt st j).key_name := by
  by_cases hj : id = j
  · subst hj
    by_cases hid : id < st.length
    · rw [add_line_tag_stationAt hid]
      split <;> rfl
    · unfold add_line_tag stationAt
      rw [listModify_getD_ge (by omega)]
  · rw [add_line_tag_stationAt_ne hj]

/-- Tagging realizes the duplicate-free union on the tagged station's
line set. -/
theorem add_line_tag_mem {st : List Station} {id : Nat} {line : String}
    (hid : id < st.length) (hlen : line.data.length ≤ 29) :
    ∀ x, x ∈ (stationAt (add_line_tag st id line) id).lines ↔
      x ∈ (stationAt st id).lines ∨ x = line := by
  intro x
  rw [add_line_tag_stationAt hid, strTake_eq_self hlen]
  by_cases hc : (stationAt st id).lines.contains line
  · rw [if_pos hc]
    have hmem : line ∈ (stationAt st id).lines := List.elem_iff.mp hc
    constructor
    · exact Or.inl
    · rintro (h | rfl)
      · exact h
      · exact hmem
  · rw [if_neg hc]
    simp

theorem add_line_tag_nodup {st : List Station} {id : Nat} {line : String}
    (hid : id < st.length) (hlen : line.data.length ≤ 29)
    (hnd : (stationAt st id).lines.Nodup) :
    (stationAt (add_line_tag st id line) id).lines.Nodup := by
  rw [add_line_tag_stationAt hid, strTake_eq_self hlen]
  by_cases hc : (stationAt st id).lines.contains line
  · rw [if_pos hc]
    exact hnd
  · rw [if_neg hc]
    simp only
    rw [List.nodup_append]
    refine ⟨hnd, List.nodup_singleton line, ?_⟩
    intro x hx hx'
    simp only [List.mem_singleton] at hx'
    have hnmem : line ∉ (stationAt st id).lines := by simpa using hc
    exact hnmem (hx' ▸ hx)

/-! ## Graph symmetry and irreflexivity -/

theorem connect_ids_symmIrrefl {adjm : Nat → Nat → Bool}
    (h : SymmIrrefl adjm) (a b : Nat) : SymmIrrefl (connect_ids adjm a b) := by
  unfold connect_ids
  by_cases hab : a = b
  · rw [if_pos hab]
    exact h
  · rw [if_neg hab]
    constructor
    · intro x y
      simp only
      by_cases hxy : (x = a ∧ y = b) ∨ (x = b ∧ y = a)
      · rw [if_pos hxy, if_pos (by tauto)]
      · rw [if_neg hxy, if_neg (by tauto)]
        exact h.1 x y
    · intro x
      simp only
      rw [if_neg (by rintro (⟨rfl, rfl⟩ | ⟨rfl, rfl⟩) <;> exact hab rfl)]
      exact h.2 x

theorem connectConsec_symmIrrefl {adjm : Nat → Nat → Bool}
    (h : SymmIrrefl adjm) : ∀ ids, SymmIrrefl (connectConsec adjm ids) := by
  intro ids
  induction ids generalizing adjm with
  | nil => exact h
  | cons a rest ih =>
    cases rest with
    | nil => exact h
    | cons b rest' =>
      exact ih (connect_ids_symmIrrefl h a b)

/-- The registration loop never touches the adjacency matrix. -/
theorem registerAll_adj (s : NetState) (lineName : String) :
    ∀ entries, (registerAll s lineName entries).1.adj = s.adj := by
  intro entries
  induction entries generalizing s with
  | nil => rfl
  | cons e rest ih =>
    obtain ⟨raw, flag⟩ := e
    simp only [registerAll]
    exact ih _

theorem add_line_symmIrrefl {s : NetState} (h : SymmIrrefl s.adj)
    (lineName : String) (entries : List (String × Nat)) :
    SymmIrrefl (add_line_with_plan s lineName entries).adj := by
  unfold add_line_with_plan
  simp only
  have hadj := registerAll_adj s lineName entries
  exact connectConsec_symmIrrefl (by rw [hadj]; exact h) _

/-- The network built by `build_network` has a symmetric, loop-free edge
relation. -/
theorem build_network_symmIrrefl (ip : Nat) :
    SymmIrrefl (build_network ip).adj := by
  unfold build_network
  refine add_line_symmIrrefl (add_line_symmIrrefl (add_line_symmIrrefl ?_ _ _) _ _) _ _
  exact ⟨fun _ _ => rfl, fun _ => rfl⟩

/-! ## Segmenter lemmas -/

/-- The nested scan of `build_edge_lines` picks the first entry of `as`
that `bs` contains, and fails exactly when the two sets are disjoint. -/
theorem findCommonLine_spec (as bs : List String) :
    (∃ l pre post, findCommonLine as bs = some l ∧ as = pre ++ l :: post ∧
      l ∈ bs ∧ ∀ x ∈ pre, x ∉ bs) ∨
    (findCommonLine as bs = none ∧ ∀ x ∈ as, x ∉ bs) := by
  induction as with
  | nil => exact Or.inr ⟨rfl, by simp⟩
  | cons a as' ih =>
    by_cases ha : bs.contains a
    · refine Or.inl ⟨a, [], as', ?_, by simp, List.elem_iff.mp ha, by simp⟩
      show (if bs.contains a then some a else findCommonLine as' bs) = some a
      rw [if_pos ha]
    · have hna : a ∉ bs := by simpa using ha
      rcases ih with ⟨l, pre, post, hfind, hsplit, hmem, hpre⟩ | ⟨hfind, hdisj⟩
      · refine Or.inl ⟨l, a :: pre, post, ?_, by simp [hsplit], hmem, ?_⟩
        · show (if bs.contains a then some a else findCommonLine as' bs) = _
          rw [if_neg ha]
          exact hfind
        · intro x hx
          rcases List.mem_cons.mp hx with rfl | hx'
          · exact hna
          · exact hpre x hx'
      · refine Or.inr ⟨?_, ?_⟩
        · show (if bs.contains a then some a else findCommonLine as' bs) = _
          rw [if_neg ha]
          exact hfind
        · intro x hx
          rcases List.mem_cons.mp hx with rfl | hx'
          · exact hna
          · exact hdisj x hx'

theorem build_edge_lines_length (st : List Station) :
    ∀ path : List Nat, (build_edge_lines st path).length = path.length - 1 := by
  intro path
  induction path with
  | nil => rfl
  | cons a rest ih =>
    cases rest with
    | nil => rfl
    | cons b rest' =>
      simp only [build_edge_lines, List.length_cons] at ih ⊢
      omega

/-- A line stored anywhere in a well-formed table is short. -/
theorem linesOf_wf {st : List Station}
    (hwf : ∀ s ∈ st, ∀ l ∈ s.lines, l.data.length ≤ 29) (a : Nat) :
    ∀ l ∈ linesOf st a, l.data.length ≤ 29 := by
  intro l hl
  unfold linesOf stationAt at hl
  by_cases ha : a < st.length
  · rw [List.getD_eq_getElem st defaultStation ha] at hl
    exact hwf st[a] (List.getElem_mem ha) l hl
  · rw [List.getD_eq_default st defaultStation (by omega)] at hl
    simp [defaultStation] at hl

/-- Pointwise behavior of the segmenter: position `i` is labelled with
the first line of station `path[i]` shared with station `path[i+1]`, or
`"unknown"` when the two line sets are disjoint. -/
theorem build_edge_lines_get (st : List Station)
    (hwf : ∀ s ∈ st, ∀ l ∈ s.lines, l.data.length ≤ 29) :
    ∀ (path : List Nat) (i : Nat), i + 1 < path.length →
      (∃ l pre post, (build_edge_lines st path).getD i "" = l ∧
        linesOf st (path.getD i 0) = pre ++ l :: post ∧
        l ∈ linesOf st (path.getD (i + 1) 0) ∧
        (∀ x ∈ pre, x ∉ linesOf st (path.getD (i + 1) 0))) ∨
      ((build_edge_lines st path).getD i "" = "unknown" ∧
        ∀ x ∈ linesOf st (path.getD i 0), x ∉ linesOf st (path.getD (i + 1) 0)) := by
  intro path
  induction path with
  | nil =>
    intro i hi
    simp at hi
  | cons a rest ih =>
    cases rest with
    | nil =>
      intro i hi
      simp at hi
    | cons b rest' =>
      intro i hi
      cases i with
      | zero =>
        rcases findCommonLine_spec (linesOf st a) (linesOf st b) with
          ⟨l, pre, post, hfind, hsplit, hmem, hpre⟩ | ⟨hfind, hdisj⟩
        · refine Or.inl ⟨l, pre, post, ?_, by simpa using hsplit,
            by simpa using hmem, by simpa using hpre⟩
          have hl29 : l.data.length ≤ 29 :=
            linesOf_wf hwf a l (by rw [hsplit]; simp)
          simp only [build_edge_lines, hfind, List.getD_cons_zero]
          exact strTake_eq_self hl29
        · refine Or.inr ⟨?_, by simpa using hdisj⟩
          simp only [build_edge_lines, hfind, List.getD_cons_zero]
      | succ i' =>
        have := ih i' (by simpa using hi)
        simpa only [build_edge_lines, List.getD_cons_succ] using this

/-! ## Small path-endpoint helpers -/

theorem head?_eq_getD {p : List Nat} (h : p ≠ []) :
    p.head? = some (p.getD 0 0) := by
  cases p with
  | nil => exact absurd rfl h
  | cons a l => rfl

theorem getLast?_eq_getD {p : List Nat} (h : p ≠ []) :
    p.getLast? = some (p.getD (p.length - 1) 0) := by
  induction p with
  | nil => exact absurd rfl h
  | cons a l ih =>
    cases l with
    | nil => rfl
    | cons b l' =>
      rw [List.getLast?_cons_cons, ih (by simp)]
      simp

theorem isPath_two_le_length {g : Graph} {bl : List (Nat × Nat)}
    {p : List Nat} {s t : Nat} (h : IsPath g bl p s t) (hne : s ≠ t) :
    2 ≤ p.length := by
  by_contra hsmall
  exact hne (h.src_eq_tgt (by omega))

/-- Querying a station against itself: the start node is dequeued at once
and the parent walk stops at `parent[src] = -1`. -/
theorem shortest_path_self (g : Graph) (bl : List (Nat × Nat)) (s : Nat) :
    shortest_path g s s bl = some [s] := by
  unfold shortest_path bfs_with_blocked_edges
  have h1 : bfsAux g bl s (g.n + 1) [s] (fun x => x == s) (fun _ => none) =
      some (fun _ => none) := by
    simp [bfsAux]
  rw [h1]
  simp [tracePath]

/-! ## Claim theorems -/

/-- C1: for every source id, destination id, and blocked edge set over a
built graph, `shortest_path` returns `NotFound` (`none`) exactly when no
path avoiding the blocked edges exists, and otherwise returns a path from
source to destination whose consecutive pairs are edges not in the
blocked set and whose hop count is minimal, with ties broken
deterministically by expanding neighbors in increasing station-identity
order: among all minimum-hop paths, the returned one is the
lexicographically least identity sequence — the path discovered first by
the left-to-right identity scan. -/
theorem claim_C1_shortest_path_correct (g : Graph) (bl : List (Nat × Nat))
    (src dest : Nat) (hsrc : src < g.n) :
    (shortest_path g src dest bl = none ↔ ¬ Reachable g bl src dest) ∧
    (∀ p, shortest_path g src dest bl = some p →
      IsPath g bl p src dest ∧
      (∀ q, IsPath g bl q src dest → p.length ≤ q.length) ∧
      (∀ q, IsPath g bl q src dest → q.length = p.length → LexLe p q)) :=
  shortest_path_spec g bl src dest hsrc

/-- Witness for C1 on the triangle graph: the returned route `[0, 1]` is
no longer than the detour `[0, 2, 1]`, and beats the equally long
two-hop route nowhere (it is the lexicographic minimum trivially). -/
theorem claim_C1_shortest_path_correct_witness :
    (0 : Nat) < Metro.tri.n ∧ 2 ≤ ([0, 2, 1] : List Nat).length ∧
      LexLe [0, 1] [0, 1] := by
  refine ⟨by decide, ?_, ?_⟩
  · have h := (claim_C1_shortest_path_correct tri [] 0 1 (by decide)).2
      [0, 1] (by decide)
    exact h.2.1 [0, 2, 1]
      ⟨List.chain'_cons.mpr ⟨by decide, List.chain'_pair.mpr (by decide)⟩,
        rfl, rfl⟩
  · have h := (claim_C1_shortest_path_correct tri [] 0 1 (by decide)).2
      [0, 1] (by decide)
    exact h.2.2 [0, 1] ⟨List.chain'_pair.mpr (by decide), rfl, rfl⟩ rfl

/-- C2 (refuted on the code): the spec and the code's own comment claim
`normalize "M.G. Road" = normalize "mg road" = normalize "M G ROAD"`, but
step 3 of `normalize_inplace` fuses ANY `letter, space, letter` triple
without checking that the letters are single-letter tokens, so
`"mg road" ↦ "mgroad"` while `"M G ROAD" ↦ "mg road"`. -/
theorem claim_C2_normalize_equivalence_fails :
    normalize "M.G. Road" = "mgroad" ∧
    normalize "mg road" = "mgroad" ∧
    normalize "M G ROAD" = "mg road" ∧
    normalize "M G ROAD" ≠ normalize "mg road" := by
  refine ⟨by decide, by decide, by decide, by decide⟩

/-- C3 (refuted on the code): `normalize` is not idempotent on the
alphanumeric-and-whitespace character set.  The input `"a b c"` is in
that set, yet `normalize "a b c" = "ab c"` while
`normalize (normalize "a b c") = "abc"`. -/
theorem claim_C3_normalize_not_idempotent :
    (∀ c ∈ "a b c".data, (cIsAlnum c || cIsSpace c) = true) ∧
    normalize "a b c" = "ab c" ∧
    normalize (normalize "a b c") = "abc" ∧
    normalize (normalize "a b c") ≠ normalize "a b c" := by
  refine ⟨by decide, by decide, by decide, by decide⟩

/-- C8: for every station id `s` and every blocked edge set,
`shortest_path s s blocked` succeeds and returns the single-station path
`[s]`. -/
theorem claim_C8_self_query (g : Graph) (bl : List (Nat × Nat)) (s : Nat)
    (hs : s < g.n) :
    shortest_path g s s bl = some [s] :=
  shortest_path_self g bl s

/-- Witness for C8 on the triangle graph with a nonempty blocked set. -/
theorem claim_C8_self_query_witness :
    (0 : Nat) < Metro.tri.n ∧ shortest_path tri 0 0 [(0, 1)] = some [0] :=
  ⟨by decide, claim_C8_self_query tri [(0, 1)] 0 (by decide)⟩

/-- C4: for every primary path of at least 2 edges and cap
`MAX_ALTERNATES = 3`, `find_alternates` returns at most 3 paths between
the primary's endpoints, pairwise distinct as exact ordered identity
sequences and each distinct from the primary; the alternates appear in
the order of the blocked primary edge that produced them
(`map some` of the result is a sublist of the per-edge candidate list,
taken in increasing edge order). -/
theorem claim_C4_alternates_distinct (g : Graph) (primary : List Nat)
    (hlen : 3 ≤ primary.length) (hs : primary.getD 0 0 < g.n) :
    (find_alternates g primary).length ≤ MAX_ALTERNATES ∧
    (find_alternates g primary).Nodup ∧
    primary ∉ find_alternates g primary ∧
    ((find_alternates g primary).map some).Sublist
      ((List.range (primary.length - 1)).map (altCandidate g primary)) ∧
    (∀ p ∈ find_alternates g primary, ∃ e, e < primary.length - 1 ∧
      altCandidate g primary e = some p ∧
      p.head? = primary.head? ∧ p.getLast? = primary.getLast?) := by
  obtain ⟨added, hfold, hsl, hnew, hnd, hlen3⟩ :=
    altFold_spec g primary (List.range (primary.length - 1)) []
      List.nodup_nil (by simp [MAX_ALTERNATES])
  have hfa : find_alternates g primary = added := by
    unfold find_alternates
    rw [hfold]
    simp
  rw [hfa]
  refine ⟨by simpa using hlen3, by simpa using hnd, ?_, hsl, ?_⟩
  · intro hmem
    exact (hnew primary hmem).2 rfl
  · intro p hp
    have hmem : some p ∈
        (List.range (primary.length - 1)).map (altCandidate g primary) :=
      hsl.subset (List.mem_map_of_mem some hp)
    obtain ⟨e, he, hcand⟩ := List.mem_map.mp hmem
    have he' : e < primary.length - 1 := List.mem_range.mp he
    have hce : altCandidate g primary e = some p := hcand
    have hsp := hce
    unfold altCandidate at hsp
    have hspec := (shortest_path_spec g
        [(primary.getD e 0, primary.getD (e + 1) 0)] (primary.getD 0 0)
        (primary.getD (primary.length - 1) 0) hs).2 p hsp
    obtain ⟨hpath, _⟩ := hspec
    have hpne : primary ≠ [] := by
      intro h
      rw [h] at hlen
      simp at hlen
    refine ⟨e, he', hce, ?_, ?_⟩
    · rw [hpath.2.1, head?_eq_getD hpne]
    · rw [hpath.2.2, getLast?_eq_getD hpne]

/-- Witness for C4 on the triangle graph with primary `[0, 1, 2]`. -/
theorem claim_C4_alternates_distinct_witness :
    (find_alternates tri [0, 1, 2]).length ≤ MAX_ALTERNATES :=
  (claim_C4_alternates_distinct tri [0, 1, 2] (by decide) (by decide)).1

/-- C10 (implicit): if the primary path is itself a minimum-hop path
between its endpoints in the current graph, then every alternate
returned by `find_alternates` has at least as many hops as the primary —
blocking an edge never produces a strictly shorter shortest path. -/
theorem claim_C10_alternates_no_shorter (g : Graph) (primary : List Nat)
    (src dst : Nat) (hsrc : src < g.n)
    (hpath : IsPath g [] primary src dst)
    (hmin : ∀ q, IsPath g [] q src dst → primary.length ≤ q.length) :
    ∀ alt ∈ find_alternates g primary, primary.length ≤ alt.length := by
  intro alt halt
  obtain ⟨added, hfold, hsl, _, _, _⟩ :=
    altFold_spec g primary (List.range (primary.length - 1)) []
      List.nodup_nil (by simp [MAX_ALTERNATES])
  have hfa : find_alternates g primary = added := by
    unfold find_alternates
    rw [hfold]
    simp
  rw [hfa] at halt
  have hmem : some alt ∈
      (List.range (primary.length - 1)).map (altCandidate g primary) :=
    hsl.subset (List.mem_map_of_mem some halt)
  obtain ⟨e, _, hcand⟩ := List.mem_map.mp hmem
  unfold altCandidate at hcand
  have hpne : primary ≠ [] := hpath.nonempty
  have hsrc0 : primary.getD 0 0 = src := by
    have := hpath.2.1
    rw [head?_eq_getD hpne] at this
    exact Option.some.inj this
  have hdst0 : primary.getD (primary.length - 1) 0 = dst := by
    have := hpath.2.2
    rw [getLast?_eq_getD hpne] at this
    exact Option.some.inj this
  rw [hsrc0, hdst0] at hcand
  have hspec := (shortest_path_spec g
      [(primary.getD e 0, primary.getD (e + 1) 0)] src dst hsrc).2 alt hcand
  exact hmin alt hspec.1.unblock

/-- Witness for C10: on the triangle, the primary `[0, 1]` is a shortest
route, and the single alternate `[0, 2, 1]` is no shorter. -/
theorem claim_C10_alternates_no_shorter_witness :
    2 ≤ ((find_alternates tri [0, 1]).getD 0 []).length := by
  have h := claim_C10_alternates_no_shorter tri [0, 1] 0 1 (by decide)
    ⟨List.chain'_pair.mpr (by decide), rfl, rfl⟩
    (fun q hq => isPath_two_le_length hq (by decide))
  exact h ((find_alternates tri [0, 1]).getD 0 []) (by decide)

/-- C5: when two register calls carry raw names normalizing to the same
key, the second call returns the id allocated by the first and leaves
the registry untouched (first-write-wins for display name and planned
flag), and tagging with line names from both calls makes the station's
line set the duplicate-free union of the tags. -/
theorem claim_C5_register_first_write_wins (st : List Station)
    (raw1 raw2 l1 l2 : String) (p1 p2 : Nat)
    (hnorm : normalize raw1 = normalize raw2)
    (hl1 : l1.data.length ≤ 29) (hl2 : l2.data.length ≤ 29) :
    let r1 := find_or_add_by_key_with_plan st (normalize raw1) raw1 p1
    let stB := add_line_tag r1.2 r1.1 l1
    let r2 := find_or_add_by_key_with_plan stB (normalize raw2) raw2 p2
    let stD := add_line_tag r2.2 r2.1 l2
    r2.1 = r1.1 ∧
    r2.2 = stB ∧
    (stationAt stD r1.1).display_name = (stationAt r1.2 r1.1).display_name ∧
    (stationAt stD r1.1).planned = (stationAt r1.2 r1.1).planned ∧
    (∀ x, x ∈ (stationAt stD r1.1).lines ↔
      x ∈ (stationAt r1.2 r1.1).lines ∨ x = l1 ∨ x = l2) ∧
    ((stationAt r1.2 r1.1).lines.Nodup → (stationAt stD r1.1).lines.Nodup) := by
  intro r1 stB r2 stD
  have hkey : (normalize raw1).data.length ≤ 79 := normalize_length_le raw1
  have hfind1 : findStation r1.2 (normalize raw1) = some r1.1 :=
    find_or_add_finds st (normalize raw1) raw1 p1 hkey
  have hid1 : r1.1 < r1.2.length := (findStation_some hfind1).1
  have hkeyfun : ∀ s : Station,
      ((fun s : Station => if s.lines.contains l1 then s
        else { s with lines := s.lines ++ [strTake 29 l1] }) s).key_name =
      s.key_name := by
    intro s
    simp only
    split <;> rfl
  have hfindB : findStation stB (normalize raw1) = some r1.1 := by
    show findStation (add_line_tag r1.2 r1.1 l1) (normalize raw1) = some r1.1
    unfold add_line_tag
    rw [findStation_listModify hkeyfun]
    exact hfind1
  have hfindB2 : findStation stB (normalize raw2) = some r1.1 := by
    rw [← hnorm]
    exact hfindB
  have hr2 : r2 = (r1.1, stB) := by
    show find_or_add_by_key_with_plan stB (normalize raw2) raw2 p2 = _
    unfold find_or_add_by_key_with_plan
    rw [hfindB2]
  have hsB : stB.length = r1.2.length := add_line_tag_length
  have hidB : r1.1 < stB.length := by omega
  have hstD : stD = add_line_tag stB r1.1 l2 := by
    show add_line_tag r2.2 r2.1 l2 = _
    rw [hr2]
  refine ⟨by rw [hr2], by rw [hr2], ?_, ?_, ?_, ?_⟩
  · rw [hstD, add_line_tag_display, add_line_tag_display]
  · rw [hstD, add_line_tag_planned, add_line_tag_planned]
  · intro x
    rw [hstD]
    rw [add_line_tag_mem hidB hl2 x]
    have hB := @add_line_tag_mem r1.2 r1.1 l1 hid1 hl1 x
    show x ∈ (stationAt (add_line_tag r1.2 r1.1 l1) r1.1).lines ∨ x = l2 ↔ _
    rw [hB]
    tauto
  · intro hnd
    rw [hstD]
    refine add_line_tag_nodup hidB hl2 ?_
    exact add_line_tag_nodup hid1 hl1 hnd

/-- Witness for C5: registering `"M.G. Road"` then `"mg road"` (equal
keys) on an empty registry returns the same id. -/
theorem claim_C5_register_first_write_wins_witness :
    (find_or_add_by_key_with_plan
      (add_line_tag (find_or_add_by_key_with_plan []
          (normalize "M.G. Road") "M.G. Road" 0).2
        (find_or_add_by_key_with_plan []
          (normalize "M.G. Road") "M.G. Road" 0).1 "purple")
      (normalize "mg road") "mg road" 1).1 =
    (find_or_add_by_key_with_plan []
      (normalize "M.G. Road") "M.G. Road" 0).1 := by
  have h := claim_C5_register_first_write_wins [] "M.G. Road" "mg road"
    "purple" "pink" 0 1 (by decide) (by decide) (by decide)
  exact h.1

/-- C6 (refuted on the code): the spec requires that registering a new
station into a registry already holding `MAX = 400` stations abort the
build; `find_or_add_by_key_with_plan` instead performs an unchecked
append — the returned id is `MAX` itself, i.e. the C code writes
`stations[400]`, one element past the 400-entry table. -/
theorem claim_C6_capacity_unchecked (st : List Station)
    (key display : String) (p : Nat) (hfull : st.length = MAX)
    (hfresh : ∀ s ∈ st, s.key_name ≠ key) :
    (find_or_add_by_key_with_plan st key display p).1 = MAX ∧
    (find_or_add_by_key_with_plan st key display p).2.length = MAX + 1 := by
  have hnone : findStation st key = none :=
    (findStation_none_iff st key).mpr hfresh
  unfold find_or_add_by_key_with_plan
  rw [hnone]
  simp [hfull]

/-- Witness for C6: a full table of 400 stations and a fresh key. -/
theorem claim_C6_capacity_unchecked_witness :
    (find_or_add_by_key_with_plan (List.replicate MAX defaultStation)
      "x" "x" 0).1 = MAX := by
  refine (claim_C6_capacity_unchecked (List.replicate MAX defaultStation)
    "x" "x" 0 (by simp) ?_).1
  intro s hs
  rw [List.eq_of_mem_replicate hs]
  decide

/-- C7: after any build of the network the edge relation is symmetric
and irreflexive, and every `connect_ids` call preserves symmetry and
irreflexivity. -/
theorem claim_C7_graph_symm_irrefl (ip : Nat) :
    (∀ a b, (build_network ip).adj a b = (build_network ip).adj b a) ∧
    (∀ a, (build_network ip).adj a a = false) ∧
    (∀ (adjm : Nat → Nat → Bool) (a b : Nat),
      SymmIrrefl adjm → SymmIrrefl (connect_ids adjm a b)) :=
  ⟨(build_network_symmIrrefl ip).1, (build_network_symmIrrefl ip).2,
    fun adjm a b h => connect_ids_symmIrrefl h a b⟩

/-- Witness for C7: instantiating both the build invariant and the
preservation statement. -/
theorem claim_C7_graph_symm_irrefl_witness :
    (build_network 0).adj 5 5 = false ∧
    SymmIrrefl (connect_ids (fun _ _ => false) 1 2) :=
  ⟨(claim_C7_graph_symm_irrefl 0).2.1 5,
    (claim_C7_graph_symm_irrefl 0).2.2 (fun _ _ => false) 1 2
      ⟨fun _ _ => rfl, fun _ => rfl⟩⟩

/-- C9: the segmenter labels each consecutive pair of a path with the
first line (scanning the first station's line set in insertion order)
common to both stations' line sets, and with the sentinel `"unknown"`
instead of failing whenever the two stations share no line; one label per
edge. -/
theorem claim_C9_segmenter (st : List Station) (path : List Nat)
    (hwf : ∀ s ∈ st, ∀ l ∈ s.lines, l.data.length ≤ 29) :
    (build_edge_lines st path).length = path.length - 1 ∧
    ∀ i, i + 1 < path.length →
      (∃ l pre post, (build_edge_lines st path).getD i "" = l ∧
        linesOf st (path.getD i 0) = pre ++ l :: post ∧
        l ∈ linesOf st (path.getD (i + 1) 0) ∧
        (∀ x ∈ pre, x ∉ linesOf st (path.getD (i + 1) 0))) ∨
      ((build_edge_lines st path).getD i "" = "unknown" ∧
        ∀ x ∈ linesOf st (path.getD i 0),
          x ∉ linesOf st (path.getD (i + 1) 0)) :=
  ⟨build_edge_lines_length st path,
    fun i hi => build_edge_lines_get st hwf path i hi⟩

/-- Witness for C9 on a concrete table: the shared-line edge and the
no-shared-line edge of the path `[0, 1, 2]`. -/
theorem claim_C9_segmenter_witness :
    (build_edge_lines stW [0, 1, 2]).length = 2 :=
  (claim_C9_segmenter stW [0, 1, 2] (by decide)).1

end Metro
